import Mathlib

/-!
Verification of the backup server (`server.js`): a shallow embedding of the
chunked backup upload, reassembly, retrieval and temp-file retention logic,
together with proofs of the specified properties.

The JSON values exchanged with the runtime's `JSON.parse` / `JSON.stringify`
are modelled by the inductive `Json` below (numbers are modelled as integers);
`Json.stringify` mirrors `JSON.stringify(data, null, 2)` (two-space indented
output) and `Json.parse` is an executable recursive-descent reader of that
grammar.  Filesystem directories are modelled as association lists from
filename to content (plus a last-modified time for the temp directory).
-/

set_option linter.unusedVariables false

mutual

/-- JSON values (object member lists and array element lists are given by the
mutually inductive `JsonObj` and `JsonList` so that all recursions below are
structural). -/
inductive Json where
  | null : Json
  | bool (b : Bool) : Json
  | num (n : Int) : Json
  | str (s : String) : Json
  | arr (elems : JsonList) : Json
  | obj (members : JsonObj) : Json

inductive JsonList where
  | nil : JsonList
  | cons (hd : Json) (tl : JsonList) : JsonList

inductive JsonObj where
  | nil : JsonObj
  | cons (key : String) (val : Json) (tl : JsonObj) : JsonObj

end

/-- The opening curly brace character. -/
def braceOpen : Char := Char.ofNat 123

/-- The closing curly brace character. -/
def braceClose : Char := Char.ofNat 125

/-- Decimal digit characters of a natural number, via structural fuel
(`fuel` must exceed `n`; `natChars` below instantiates it with `n + 1`). -/
def natCharsAux : Nat → Nat → List Char → List Char
  | 0, _, acc => acc
  | fuel + 1, n, acc =>
    if n < 10 then Nat.digitChar n :: acc
    else natCharsAux fuel (n / 10) (Nat.digitChar (n % 10) :: acc)

/-- Decimal digit characters of a natural number. -/
def natChars (n : Nat) : List Char :=
  natCharsAux (n + 1) n []

/-- Decimal rendering of an integer, as `JSON.stringify` prints integral
numbers. -/
def intChars : Int → List Char
  | Int.ofNat m => natChars m
  | Int.negSucc m => '-' :: natChars (m + 1)

/-- The escape sequence `JSON.stringify` emits for a single character. -/
def escChar (c : Char) : List Char :=
  if c = '"' then ['\\', '"']
  else if c = '\\' then ['\\', '\\']
  else if c.toNat = 8 then ['\\', 'b']
  else if c = '\t' then ['\\', 't']
  else if c = '\n' then ['\\', 'n']
  else if c.toNat = 12 then ['\\', 'f']
  else if c = '\r' then ['\\', 'r']
  else if c.toNat < 32 then
    ['\\', 'u', '0', '0', Nat.digitChar (c.toNat / 16), Nat.digitChar (c.toNat % 16)]
  else [c]

/-- String-body escaping as performed by `JSON.stringify`. -/
def escChars : List Char → List Char
  | [] => []
  | c :: cs => escChar c ++ escChars cs

/-- `n` spaces of indentation. -/
def spc (n : Nat) : List Char :=
  List.replicate n ' '

mutual

/-- Rendering of a JSON value as `JSON.stringify(value, null, 2)` renders it;
`k` is the indentation level of the surrounding context. -/
def renderV : Json → Nat → List Char
  | Json.null, _ => ['n', 'u', 'l', 'l']
  | Json.bool true, _ => ['t', 'r', 'u', 'e']
  | Json.bool false, _ => ['f', 'a', 'l', 's', 'e']
  | Json.num n, _ => intChars n
  | Json.str s, _ => '"' :: (escChars s.data ++ ['"'])
  | Json.arr JsonList.nil, _ => ['[', ']']
  | Json.arr (JsonList.cons x xs), k =>
      '[' :: '\n' :: (renderItemsV (JsonList.cons x xs) (k + 2) ++ ('\n' :: (spc k ++ [']'])))
  | Json.obj JsonObj.nil, _ => [braceOpen, braceClose]
  | Json.obj (JsonObj.cons key v ms), k =>
      braceOpen :: '\n' :: (renderMembersV (JsonObj.cons key v ms) (k + 2) ++ ('\n' :: (spc k ++ [braceClose])))

/-- Rendering of the comma-separated lines of a non-empty array body. -/
def renderItemsV : JsonList → Nat → List Char
  | JsonList.nil, _ => []
  | JsonList.cons x JsonList.nil, k => spc k ++ renderV x k
  | JsonList.cons x (JsonList.cons y ys), k =>
      spc k ++ (renderV x k ++ (',' :: '\n' :: renderItemsV (JsonList.cons y ys) k))

/-- Rendering of the comma-separated lines of a non-empty object body. -/
def renderMembersV : JsonObj → Nat → List Char
  | JsonObj.nil, _ => []
  | JsonObj.cons key v JsonObj.nil, k =>
      spc k ++ ('"' :: (escChars key.data ++ ('"' :: ':' :: ' ' :: renderV v k)))
  | JsonObj.cons key v (JsonObj.cons key2 v2 ms), k =>
      spc k ++ ('"' :: (escChars key.data ++ ('"' :: ':' :: ' ' ::
        (renderV v k ++ (',' :: '\n' :: renderMembersV (JsonObj.cons key2 v2 ms) k)))))

end

/-- What follows one rendered array element: nothing for the last element,
comma-newline and the remaining elements otherwise. -/
def itemsSep : JsonList → Nat → List Char
  | JsonList.nil, _ => []
  | JsonList.cons y ys, k => ',' :: '\n' :: renderItemsV (JsonList.cons y ys) k

/-- What follows one rendered object member. -/
def memSep : JsonObj → Nat → List Char
  | JsonObj.nil, _ => []
  | JsonObj.cons key2 v2 ms, k => ',' :: '\n' :: renderMembersV (JsonObj.cons key2 v2 ms) k

/-- The largest integer exactly representable as an ECMAScript number
(`Number.MAX_SAFE_INTEGER`). -/
def maxSafeInt : Nat := 9007199254740991

/-- Whether the object already binds the given key. -/
def objHasKey : JsonObj → String → Bool
  | JsonObj.nil, _ => false
  | JsonObj.cons k _ ms, key => k == key || objHasKey ms key

mutual

/-- The documents of the model whose runtime counterpart is exact: every
number is an integer in the safe range (so the runtime double is the integer
itself and re-serializes to its plain decimal digits) and no object repeats a
key (a runtime object cannot).  `Json.stringify` agrees with the runtime
re-serialization exactly on this fragment. -/
def jsonWf : Json → Bool
  | Json.null => true
  | Json.bool _ => true
  | Json.num n => decide (n.natAbs ≤ maxSafeInt)
  | Json.str _ => true
  | Json.arr l => jsonListWf l
  | Json.obj m => jsonObjWf m

/-- `jsonWf` on every array element. -/
def jsonListWf : JsonList → Bool
  | JsonList.nil => true
  | JsonList.cons x xs => jsonWf x && jsonListWf xs

/-- `jsonWf` on every member value, with no repeated keys. -/
def jsonObjWf : JsonObj → Bool
  | JsonObj.nil => true
  | JsonObj.cons k v ms => jsonWf v && !objHasKey ms k && jsonObjWf ms

end

/-- `JSON.stringify(d, null, 2)`. -/
def Json.stringify (d : Json) : String :=
  String.mk (renderV d 0)

/-- JSON whitespace skipping (the whitespace set of `JSON.parse` is exactly
space, tab, carriage return and line feed). -/
def skipWs (cs : List Char) : List Char :=
  cs.dropWhile Char.isWhitespace

/-- Value of a hexadecimal digit character. -/
def hexVal (c : Char) : Option Nat :=
  if '0' ≤ c ∧ c ≤ '9' then some (c.toNat - 48)
  else if 'a' ≤ c ∧ c ≤ 'f' then some (c.toNat - 87)
  else if 'A' ≤ c ∧ c ≤ 'F' then some (c.toNat - 55)
  else none

/-- Reads a JSON string body (everything after the opening quote) up to and
including the closing quote.  The first component is the unescaped character
list when the denoted string is representable (`some`), or `none` for an
accepted string containing a lone-surrogate escape, which a Lean `String`
cannot hold; the parse fails (outer `none`) exactly when `JSON.parse`
rejects the body. -/
def parseStrBody : List Char → Option (Option (List Char) × List Char)
  | [] => none
  | c :: rest =>
    if c = '"' then some (some [], rest)
    else if c = '\\' then
      match rest with
      | [] => none
      | e :: r =>
        if e = '"' then (parseStrBody r).map (fun p => (p.1.map (fun s => '"' :: s), p.2))
        else if e = '\\' then (parseStrBody r).map (fun p => (p.1.map (fun s => '\\' :: s), p.2))
        else if e = '/' then (parseStrBody r).map (fun p => (p.1.map (fun s => '/' :: s), p.2))
        else if e = 'b' then (parseStrBody r).map (fun p => (p.1.map (fun s => Char.ofNat 8 :: s), p.2))
        else if e = 'f' then (parseStrBody r).map (fun p => (p.1.map (fun s => Char.ofNat 12 :: s), p.2))
        else if e = 'n' then (parseStrBody r).map (fun p => (p.1.map (fun s => '\n' :: s), p.2))
        else if e = 'r' then (parseStrBody r).map (fun p => (p.1.map (fun s => '\r' :: s), p.2))
        else if e = 't' then (parseStrBody r).map (fun p => (p.1.map (fun s => '\t' :: s), p.2))
        else if e = 'u' then
          match r with
          | h1 :: h2 :: h3 :: h4 :: r2 =>
            match hexVal h1, hexVal h2, hexVal h3, hexVal h4 with
            | some a, some b, some c2, some d2 =>
              if 55296 ≤ ((a * 16 + b) * 16 + c2) * 16 + d2 ∧
                  ((a * 16 + b) * 16 + c2) * 16 + d2 ≤ 57343 then
                (parseStrBody r2).map (fun p => (none, p.2))
              else
                (parseStrBody r2).map (fun p =>
                  (p.1.map (fun s => Char.ofNat (((a * 16 + b) * 16 + c2) * 16 + d2) :: s), p.2))
            | _, _, _, _ => none
          | _ => none
        else none
    else if c.toNat < 32 then none
    else (parseStrBody rest).map (fun p => (p.1.map (fun s => c :: s), p.2))

/-- Numeric value of a list of decimal digit characters. -/
def digitsVal (a : Nat) (cs : List Char) : Nat :=
  cs.foldl (fun x c => x * 10 + (c.toNat - 48)) a

/-- Reads the integer part of a JSON number: a single `0`, or a nonzero
digit followed by digits (the leading-zero rule of the JSON grammar). -/
def parseIntDigits (cs : List Char) : Option (Nat × List Char) :=
  match cs with
  | [] => none
  | c :: r =>
    if c = '0' then some (0, r)
    else if c.isDigit then
      some (digitsVal 0 ((c :: r).takeWhile Char.isDigit), (c :: r).dropWhile Char.isDigit)
    else none

/-- Reads a JSON exponent body: an optional sign and at least one digit. -/
def parseExpDigits (cs : List Char) : Option (List Char) :=
  match cs with
  | [] => none
  | c :: r =>
    if c = '+' ∨ c = '-' then
      if (r.takeWhile Char.isDigit).isEmpty then none else some (r.dropWhile Char.isDigit)
    else if (cs.takeWhile Char.isDigit).isEmpty then none
    else some (cs.dropWhile Char.isDigit)

/-- Reads an optional fraction and exponent after the integer part, returning
whether either was present. -/
def parseFracExp (cs : List Char) : Option (Bool × List Char) :=
  match cs with
  | [] => some (false, [])
  | c :: r =>
    if c = '.' then
      if (r.takeWhile Char.isDigit).isEmpty then none
      else
        match r.dropWhile Char.isDigit with
        | [] => some (true, [])
        | c2 :: r2 =>
          if c2 = 'e' ∨ c2 = 'E' then (parseExpDigits r2).map (fun r3 => (true, r3))
          else some (true, c2 :: r2)
    else if c = 'e' ∨ c = 'E' then (parseExpDigits r).map (fun r2 => (true, r2))
    else some (false, c :: r)

/-- The value of an accepted number token: an exactly modeled integer when
the token has no fraction or exponent and its magnitude is a safe integer,
`none` (accepted but outside the modeled fragment) otherwise. -/
def mkNumResult (neg : Bool) (ival : Nat) (hasFracExp : Bool) : Option Int :=
  if hasFracExp then none
  else if ival ≤ maxSafeInt then some (if neg then -(ival : Int) else (ival : Int))
  else none

/-- Classification of the remainder of a number token after the sign. -/
def parseNumAfter (neg : Bool) (p : Option (Nat × List Char)) :
    Option (Option Int × List Char) :=
  match p with
  | none => none
  | some (ival, r1) =>
    match parseFracExp r1 with
    | none => none
    | some q => some (mkNumResult neg ival q.1, q.2)

/-- Reads a JSON number token (`-? (0 | [1-9][0-9]*) (. digits)?
([eE] sign? digits)?`), failing exactly where `JSON.parse` rejects the
token. -/
def parseNumber (cs : List Char) : Option (Option Int × List Char) :=
  match cs with
  | [] => none
  | c :: r =>
    if c = '-' then parseNumAfter true (parseIntDigits r)
    else parseNumAfter false (parseIntDigits (c :: r))

/-- The input after a rendered number token must not extend it: it must not
start with a digit, a decimal point or an exponent marker. -/
def numBoundary : List Char → Prop
  | [] => True
  | c :: _ => c.isDigit = false ∧ c ≠ '.' ∧ c ≠ 'e' ∧ c ≠ 'E'

/-- Checks that the input starts with the given literal characters and
returns the rest of the input. -/
def eatLit : List Char → List Char → Option (List Char)
  | [], cs => some cs
  | p :: ps, c :: cs => if c = p then eatLit ps cs else none
  | _ :: _, [] => none

/-- Cons of possibly-unmodeled array pieces: the array is exactly modeled
only when both the head and the tail are. -/
def consOptL (x : Option Json) (xs : Option JsonList) : Option JsonList :=
  match x, xs with
  | some v, some l => some (JsonList.cons v l)
  | _, _ => none

/-- Cons of possibly-unmodeled object pieces: the object is exactly modeled
only when key, value and tail are, and the key is not repeated (the runtime
object keeps the last binding of a repeated key, which `JsonObj` does not
represent). -/
def consOptO (k : Option (List Char)) (v : Option Json) (ms : Option JsonObj) :
    Option JsonObj :=
  match k, v, ms with
  | some key, some vv, some m =>
    if objHasKey m (String.mk key) then none else some (JsonObj.cons (String.mk key) vv m)
  | _, _, _ => none

mutual

/-- Recursive-descent reader of a JSON value.  Expects the input to start
with a non-whitespace character; `fuel` bounds the recursion depth (any fuel
larger than the length of the value's rendering is sufficient).  The outer
`Option` is acceptance — `none` exactly where `JSON.parse` throws; the inner
`Option Json` is `some d` when the accepted value lies in the exactly
modeled fragment and `none` otherwise (fraction/exponent or unsafe-range
numbers, lone-surrogate escapes, repeated object keys). -/
def parseVal : Nat → List Char → Option (Option Json × List Char)
  | 0, _ => none
  | fuel + 1, cs =>
    match cs with
    | [] => none
    | c :: rest =>
      if c.isDigit ∨ c = '-' then
        (parseNumber (c :: rest)).map (fun p => (p.1.map Json.num, p.2))
      else if c = '"' then
        (parseStrBody rest).map (fun p => (p.1.map (fun b => Json.str (String.mk b)), p.2))
      else if c = '[' then
        if (skipWs rest).head? = some ']' then some (some (Json.arr JsonList.nil), (skipWs rest).tail)
        else (parseItems fuel rest).map (fun p => (p.1.map Json.arr, p.2))
      else if c = braceOpen then
        if (skipWs rest).head? = some braceClose then
          some (some (Json.obj JsonObj.nil), (skipWs rest).tail)
        else (parseMembers fuel rest).map (fun p => (p.1.map Json.obj, p.2))
      else if c = 'n' then (eatLit ['u', 'l', 'l'] rest).map (fun r => (some Json.null, r))
      else if c = 't' then (eatLit ['r', 'u', 'e'] rest).map (fun r => (some (Json.bool true), r))
      else if c = 'f' then (eatLit ['a', 'l', 's', 'e'] rest).map (fun r => (some (Json.bool false), r))
      else none

/-- Reads the elements of a non-empty array body, consuming the closing
bracket. -/
def parseItems : Nat → List Char → Option (Option JsonList × List Char)
  | 0, _ => none
  | fuel + 1, cs =>
    match parseVal fuel (skipWs cs) with
    | none => none
    | some (v, r) =>
      match skipWs r with
      | [] => none
      | c2 :: r2 =>
        if c2 = ',' then (parseItems fuel r2).map (fun p => (consOptL v p.1, p.2))
        else if c2 = ']' then some (consOptL v (some JsonList.nil), r2)
        else none

/-- Reads the members of a non-empty object body, consuming the closing
brace. -/
def parseMembers : Nat → List Char → Option (Option JsonObj × List Char)
  | 0, _ => none
  | fuel + 1, cs =>
    match skipWs cs with
    | [] => none
    | c0 :: cs1 =>
      if c0 = '"' then
        match parseStrBody cs1 with
        | none => none
        | some (key, r1) =>
          match skipWs r1 with
          | [] => none
          | c1 :: r2 =>
            if c1 = ':' then
              match parseVal fuel (skipWs r2) with
              | none => none
              | some (v, r) =>
                match skipWs r with
                | [] => none
                | c2 :: r3 =>
                  if c2 = ',' then
                    (parseMembers fuel r3).map (fun p => (consOptO key v p.1, p.2))
                  else if c2 = braceClose then
                    some (consOptO key v (some JsonObj.nil), r3)
                  else none
            else none
      else none

end

/-- `JSON.parse`: reads one JSON value, allowing surrounding whitespace and
requiring the whole input to be consumed.  `none` exactly where the runtime
`JSON.parse` throws; `some (some d)` when the accepted document is in the
exactly modeled fragment (see `jsonWf`); `some none` for an accepted
document outside it. -/
def Json.parse (s : String) : Option (Option Json) :=
  match parseVal (s.data.length + 1) (skipWs s.data) with
  | some (d, rest) => if (skipWs rest).isEmpty then some d else none
  | none => none

/-- The string the server writes after `JSON.parse (src)` succeeded with
document `od` (`JSON.stringify(data, null, 2)`).  On the exactly modeled
fragment this is `Json.stringify`; for an accepted document outside the
fragment the model does not track the re-serialized text and keeps the
source text as an opaque stand-in (the write itself still happens). -/
def reserialize (src : String) : Option Json → String
  | some d => Json.stringify d
  | none => src

/-! ## Filesystem model: temp directory and backups directory -/

/-- One file of the temp directory: name, content and last-modified time in
milliseconds (as reported by `stats.mtimeMs`). -/
structure TempEntry where
  name : String
  content : String
  mtimeMs : Int
deriving DecidableEq

/-- Content of the named temp file (`fs.readFile`), if present. -/
def lookupT : List TempEntry → String → Option String
  | [], _ => none
  | e :: es, id => if e.name = id then some e.content else lookupT es id

/-- Removes the named temp file (`fs.unlink`). -/
def eraseT : List TempEntry → String → List TempEntry
  | [], _ => []
  | e :: es, id => if e.name = id then eraseT es id else e :: eraseT es id

/-- Writes (or overwrites) the named temp file (`fs.writeFile`), stamping the
current time. -/
def writeT (l : List TempEntry) (id content : String) (now : Int) : List TempEntry :=
  ⟨id, content, now⟩ :: eraseT l id

/-- Content of the named backup file, if present. -/
def lookupB : List (String × String) → String → Option String
  | [], _ => none
  | p :: ps, f => if p.1 = f then some p.2 else lookupB ps f

/-- Removes the named backup file. -/
def eraseB : List (String × String) → String → List (String × String)
  | [], _ => []
  | p :: ps, f => if p.1 = f then eraseB ps f else p :: eraseB ps f

/-- Writes (or overwrites) the named backup file (`fs.writeFile`). -/
def writeB (l : List (String × String)) (f content : String) : List (String × String) :=
  (f, content) :: eraseB l f

/-- The mutable server state: the `temp` directory and the `backups`
directory. -/
structure ServerState where
  temp : List TempEntry
  backups : List (String × String)

/-! ## `new Date(timestamp).toISOString()` -/

/-- Civil date (year, month, day) from a count of days since 1970-01-01
(Gregorian calendar, non-negative days). -/
def civilFromDays (z : Nat) : Nat × Nat × Nat :=
  let z' := z + 719468
  let era := z' / 146097
  let doe := z' % 146097
  let yoe := (doe - doe / 1460 + doe / 36524 - doe / 146096) / 365
  let y := yoe + era * 400
  let doy := doe - (365 * yoe + yoe / 4 - yoe / 100)
  let mp := (5 * doy + 2) / 153
  let d := doy - (153 * mp + 2) / 5 + 1
  let m := if mp < 10 then mp + 3 else mp - 9
  (if m ≤ 2 then y + 1 else y, m, d)

/-- Left-pads the decimal rendering of `n` with zeros to `w` characters. -/
def padNat (w n : Nat) : List Char :=
  List.replicate (w - (natChars n).length) '0' ++ natChars n

/-- The largest millisecond timestamp accepted by `new Date(t)`
(`8.64e15`); beyond it the `Date` is invalid and `toISOString` throws. -/
def dateRangeMax : Nat := 8640000000000000

/-- `new Date(t).toISOString()` for a non-negative millisecond timestamp `t`
within the `Date` range; years beyond 9999 use the expanded `+YYYYYY` form,
as in ECMAScript. -/
def toISOString (t : Nat) : String :=
  let ms := t % 1000
  let sec := t / 1000 % 60
  let mn := t / 60000 % 60
  let hr := t / 3600000 % 24
  let ymd := civilFromDays (t / 86400000)
  String.mk ((if ymd.1 < 10000 then padNat 4 ymd.1 else '+' :: padNat 6 ymd.1) ++
    ('-' :: padNat 2 ymd.2.1 ++ ('-' :: padNat 2 ymd.2.2 ++
    ('T' :: padNat 2 hr ++ (':' :: padNat 2 mn ++ (':' :: padNat 2 sec ++
    ('.' :: padNat 3 ms ++ ['Z'])))))))

/-- `.replace(/[:.]/g, '-')` applied to one character. -/
def dashRepl (c : Char) : Char :=
  if c = ':' ∨ c = '.' then '-' else c

/-- The backup filename derived from a timestamp:
`backup_` + ISO timestamp with colons and dots replaced by dashes + `.json`. -/
def backupFilename (timestamp : Nat) : String :=
  "backup_" ++ String.mk ((toISOString timestamp).data.map dashRepl) ++ ".json"

/-! ## HTTP responses and route handlers -/

/-- The uniform response envelope: HTTP status plus the JSON body fields the
routes use (`success`, optional `message`, optional `data`, optional
`chunkId`). -/
structure ApiResponse where
  status : Nat
  success : Bool
  message : Option String
  data : Option Json
  chunkId : Option String

/-- The chunk identifier template literal `chunk_` + timestamp + `_` + index. -/
def chunkIdOf (timestamp index : Nat) : String :=
  "chunk_" ++ String.mk (natChars timestamp) ++ "_" ++ String.mk (natChars index)

/-- `POST /api/backup/chunk`: stores the chunk in the temp directory under
`chunk_` + timestamp + `_` + index and answers with the chunk id.  (`total`
is accepted but unused.) -/
def receiveChunk (st : ServerState) (chunk : String) (index total timestamp : Nat)
    (now : Int) : ServerState × ApiResponse :=
  let chunkId := chunkIdOf timestamp index
  ({ st with temp := writeT st.temp chunkId chunk now },
   ⟨200, true, none, none, some chunkId⟩)

/-- The chunk-combining loop of `POST /api/backup/combine`: for each id in
order, read the chunk as text, append it, delete the chunk.  Returns the temp
directory after the deletions performed, and the concatenation (`none` when a
read failed, in which case the loop stopped there). -/
def combineLoop : List TempEntry → List String → List TempEntry × Option String
  | temp, [] => (temp, some "")
  | temp, id :: rest =>
    match lookupT temp id with
    | none => (temp, none)
    | some c =>
      match combineLoop (eraseT temp id) rest with
      | (t', none) => (t', none)
      | (t', some s) => (t', some (c ++ s))

/-- The failure envelope of `POST /api/backup/combine`. -/
def combineFail : ApiResponse :=
  ⟨500, false, some "Failed to combine chunks", none, none⟩

/-- `POST /api/backup/combine`: reads and deletes the chunks in the supplied
order, parses the concatenation, and on success writes the re-serialized
document to the backups directory under the timestamp-derived filename.  A
timestamp outside the `Date` range makes `toISOString` throw, which the
route's catch turns into the failure envelope. -/
def combine (st : ServerState) (chunkIds : List String) (timestamp : Nat) :
    ServerState × ApiResponse :=
  match combineLoop st.temp chunkIds with
  | (t', none) => ({ st with temp := t' }, combineFail)
  | (t', some s) =>
    match Json.parse s with
    | none => ({ st with temp := t' }, combineFail)
    | some od =>
      if timestamp ≤ dateRangeMax then
        ({ temp := t',
           backups := writeB st.backups (backupFilename timestamp) (reserialize s od) },
         ⟨200, true, some "Backup saved successfully", none, none⟩)
      else ({ st with temp := t' }, combineFail)

/-- `POST /api/backup`: writes the document under a filename derived from the
current server time. -/
def saveBackup (st : ServerState) (d : Json) (now : Nat) : ServerState × ApiResponse :=
  ({ st with backups := writeB st.backups (backupFilename now) (Json.stringify d) },
   ⟨200, true, some "Backup saved successfully", none, none⟩)

/-- `file.endsWith('.json')`. -/
def strEndsWith (s suffix : String) : Bool :=
  List.isSuffixOf suffix.data s.data

/-- Strict lexicographic comparison of character lists (by code point), the
order underlying the default comparator of `Array.prototype.sort` on
strings. -/
def charListLt : List Char → List Char → Bool
  | [], [] => false
  | [], _ :: _ => true
  | _ :: _, [] => false
  | a :: as, b :: bs => if a < b then true else if b < a then false else charListLt as bs

/-- Strict lexicographic order on strings. -/
def strLtB (a b : String) : Bool :=
  charListLt a.data b.data

/-- Lexicographic `less or equal` on strings. -/
def strLeB (a b : String) : Bool :=
  !(strLtB b a)

/-- Insertion of a string into a `strLeB`-sorted list. -/
def insertLe (x : String) : List String → List String
  | [] => [x]
  | y :: ys => if strLeB x y then x :: y :: ys else y :: insertLe x ys

/-- `files.sort()`: lexicographically ascending sort (insertion sort; agrees
with any correct sort since `strLeB` is a linear order). -/
def sortLe : List String → List String
  | [] => []
  | x :: xs => insertLe x (sortLe xs)

/-- `GET /api/backup`: answers 404 on an empty backups directory, otherwise
selects the lexicographically last `.json` filename
(`filter(endsWith '.json').sort().reverse()[0]`), reads it and returns its
parsed content.  A stored document outside the exactly modeled fragment is
still served with status 200; only its value is not tracked (`data` is left
`none` in the model). -/
def getBackup (st : ServerState) : ApiResponse :=
  let files := st.backups.map Prod.fst
  if files.isEmpty then ⟨404, false, some "No backups found", none, none⟩
  else
    match (sortLe (files.filter (fun f => strEndsWith f ".json"))).reverse.head? with
    | none => ⟨404, false, some "No backup files found", none, none⟩
    | some latest =>
      match lookupB st.backups latest with
      | none => ⟨500, false, some "Failed to load backup", none, none⟩
      | some content =>
        match Json.parse content with
        | none => ⟨500, false, some "Failed to load backup", none, none⟩
        | some (some d) => ⟨200, true, none, some d, none⟩
        | some none => ⟨200, true, none, none, none⟩

/-! ## The retention sweeper (`cleanupTempFiles`) -/

/-- The staleness threshold: one hour in milliseconds. -/
def oneHourMs : Int := 60 * 60 * 1000

/-- The sweep loop over the listed temp files, in order.  A file is deleted
when `now - mtimeMs > oneHour`.  `unlinkFails` tells which `fs.unlink` calls
throw; since the `try` block spans the whole loop, a throwing unlink aborts
the loop, leaving that file and all later files untouched.  Returns the
remaining files and whether the loop was aborted. -/
def sweepRun (now : Int) (unlinkFails : String → Bool) :
    List TempEntry → List TempEntry × Bool
  | [] => ([], false)
  | e :: rest =>
    if now - e.mtimeMs > oneHourMs then
      if unlinkFails e.name then (e :: rest, true)
      else sweepRun now unlinkFails rest
    else
      (e :: (sweepRun now unlinkFails rest).1, (sweepRun now unlinkFails rest).2)

/-- `cleanupTempFiles`: one run of the retention sweeper.  Any error raised
inside is caught and logged, so the function itself always returns. -/
def cleanupTempFiles (now : Int) (unlinkFails : String → Bool)
    (temp : List TempEntry) : List TempEntry :=
  (sweepRun now unlinkFails temp).1

example : Json.parse "" = none := by rfl
example : Json.parse "123" = some (some (Json.num 123)) := by rfl
example : Json.parse "-45" = some (some (Json.num (-45))) := by rfl
example : Json.parse "null" = some (some Json.null) := by rfl
example : Json.parse " [ ] " = some (some (Json.arr JsonList.nil)) := by rfl
example : Json.parse "[1,2]" = some (some (Json.arr (JsonList.cons (Json.num 1) (JsonList.cons (Json.num 2) JsonList.nil)))) := by rfl
example : Json.parse "01" = none := by rfl
example : Json.parse "-01" = none := by rfl
example : Json.parse "1." = none := by rfl
example : Json.parse "1e" = none := by rfl
example : Json.parse ".5" = none := by rfl
example : Json.parse "1.5" = some none := by rfl
example : Json.parse "0.5" = some none := by rfl
example : Json.parse "1e3" = some none := by rfl
example : Json.parse "-2E+10" = some none := by rfl
example : Json.parse "1e-05" = some none := by rfl
example : Json.parse "9007199254740991" = some (some (Json.num 9007199254740991)) := by rfl
example : Json.parse "9007199254740992" = some none := by rfl
example : Json.parse "[1,1.5]" = some none := by rfl
example : Json.parse "[1,]" = none := by rfl
example : Json.parse "\"a\\u0041b\"" = some (some (Json.str "aAb")) := by rfl
example : Json.parse "\"\\uD800\"" = some none := by rfl
example : Json.parse "nullx" = none := by rfl
example : Json.stringify (Json.arr (JsonList.cons (Json.num 1) (JsonList.cons (Json.num 2) JsonList.nil))) = "[\n  1,\n  2\n]" := by rfl
example : Json.parse (Json.stringify (Json.arr (JsonList.cons (Json.num 1) (JsonList.cons (Json.str "a\nb") JsonList.nil)))) = some (some (Json.arr (JsonList.cons (Json.num 1) (JsonList.cons (Json.str "a\nb") JsonList.nil)))) := by rfl
example : toISOString 0 = "1970-01-01T00:00:00.000Z" := by rfl
example : toISOString 951867296789 = "2000-02-29T23:34:56.789Z" := by rfl
example : toISOString 951868799999 = "2000-02-29T23:59:59.999Z" := by rfl
example : toISOString 951868800000 = "2000-03-01T00:00:00.000Z" := by rfl
example : toISOString 1700000000000 = "2023-11-14T22:13:20.000Z" := by rfl
example : toISOString 4107456000000 = "2100-02-28T00:00:00.000Z" := by rfl
example : toISOString 4107542400000 = "2100-03-01T00:00:00.000Z" := by rfl
example : toISOString 13574563200000 = "2400-02-29T00:00:00.000Z" := by rfl
example : toISOString 253402300799999 = "9999-12-31T23:59:59.999Z" := by rfl
example : toISOString 253402300800000 = "+010000-01-01T00:00:00.000Z" := by rfl
example : toISOString 8640000000000000 = "+275760-09-13T00:00:00.000Z" := by rfl
example : backupFilename 951867296789 = "backup_2000-02-29T23-34-56-789Z.json" := by rfl

/-! ## Whitespace and digit lemmas -/

theorem skipWs_ws_append (pre cs : List Char) (h : ∀ c ∈ pre, c.isWhitespace = true) :
    skipWs (pre ++ cs) = skipWs cs := by
  induction pre with
  | nil => rfl
  | cons p ps ih =>
    have hp : p.isWhitespace = true := h p (by simp)
    simp only [List.cons_append, skipWs, List.dropWhile_cons, hp, if_true]
    exact ih fun c hc => h c (by simp [hc])

theorem skipWs_cons_not (c : Char) (cs : List Char) (h : c.isWhitespace = false) :
    skipWs (c :: cs) = c :: cs := by
  simp [skipWs, List.dropWhile_cons, h]

theorem spc_ws (n : Nat) : ∀ c ∈ spc n, c.isWhitespace = true := by
  intro c hc
  have : c = ' ' := List.eq_of_mem_replicate hc
  subst this
  rfl

theorem digitChar_isDigit (d : Nat) (h : d < 10) : (Nat.digitChar d).isDigit = true := by
  interval_cases d <;> rfl

theorem digitChar_val (d : Nat) (h : d < 10) : (Nat.digitChar d).toNat - 48 = d := by
  interval_cases d <;> rfl

theorem hexVal_digitChar (d : Nat) (h : d < 16) : hexVal (Nat.digitChar d) = some d := by
  interval_cases d <;> rfl

theorem isDigit_not_ws {c : Char} (h : c.isDigit = true) : c.isWhitespace = false := by
  by_contra hw
  rw [Bool.not_eq_false] at hw
  simp only [Char.isWhitespace, Bool.or_eq_true, decide_eq_true_eq] at hw
  rcases hw with ((h' | h') | h') | h' <;> subst h' <;> exact absurd h (by decide)

theorem isDigit_ne_rbracket {c : Char} (h : c.isDigit = true) : c ≠ ']' := by
  intro he
  subst he
  exact absurd h (by decide)

theorem isDigit_ne_minus {c : Char} (h : c.isDigit = true) : c ≠ '-' := by
  intro he
  subst he
  exact absurd h (by decide)

theorem digitChar_ne_zero (d : Nat) (h1 : 0 < d) (h2 : d < 10) : ¬Nat.digitChar d = '0' := by
  interval_cases d <;> decide

/-! ## Decimal digits round trip -/

theorem natCharsAux_acc (fuel : Nat) : ∀ n acc,
    natCharsAux fuel n acc = natCharsAux fuel n [] ++ acc := by
  induction fuel with
  | zero => intro n acc; rfl
  | succ f ih =>
    intro n acc
    by_cases h : n < 10
    · simp [natCharsAux, h]
    · simp only [natCharsAux, h, if_false]
      rw [ih (n / 10) (Nat.digitChar (n % 10) :: acc), ih (n / 10) [Nat.digitChar (n % 10)]]
      simp

theorem natCharsAux_spec (fuel : Nat) : ∀ n, n < fuel →
    (∀ c ∈ natCharsAux fuel n [], c.isDigit = true) ∧
    natCharsAux fuel n [] ≠ [] ∧
    ∀ a, digitsVal a (natCharsAux fuel n []) =
      a * 10 ^ (natCharsAux fuel n []).length + n := by
  induction fuel with
  | zero => intro n hn; omega
  | succ f ih =>
    intro n hn
    by_cases h : n < 10
    · refine ⟨?_, by simp [natCharsAux, h], ?_⟩
      · intro c hc
        simp only [natCharsAux, h, if_true, List.mem_singleton] at hc
        subst hc
        exact digitChar_isDigit n h
      · intro a
        simp only [natCharsAux, h, if_true, digitsVal, List.foldl_cons, List.foldl_nil,
          List.length_singleton, pow_one]
        rw [digitChar_val n h]
    · have hdiv : n / 10 < f := by
        have h1 : n / 10 < n := Nat.div_lt_self (by omega) (by omega)
        omega
      obtain ⟨ihd, ihne, ihv⟩ := ih (n / 10) hdiv
      have hrw : natCharsAux (f + 1) n [] =
          natCharsAux f (n / 10) [] ++ [Nat.digitChar (n % 10)] := by
        simp only [natCharsAux, h, if_false]
        exact natCharsAux_acc f (n / 10) [Nat.digitChar (n % 10)]
      refine ⟨?_, ?_, ?_⟩
      · intro c hc
        rw [hrw] at hc
        rcases List.mem_append.mp hc with hc | hc
        · exact ihd c hc
        · rw [List.mem_singleton] at hc
          subst hc
          exact digitChar_isDigit _ (Nat.mod_lt _ (by omega))
      · rw [hrw]; simp
      · intro a
        rw [hrw]
        simp only [digitsVal, List.foldl_append, List.foldl_cons, List.foldl_nil,
          List.length_append, List.length_singleton]
        have hfold : List.foldl (fun x c => x * 10 + (c.toNat - 48)) a
            (natCharsAux f (n / 10) []) = a * 10 ^ (natCharsAux f (n / 10) []).length + n / 10 :=
          ihv a
        rw [hfold, digitChar_val _ (Nat.mod_lt _ (by omega))]
        have : (a * 10 ^ (natCharsAux f (n / 10) []).length + n / 10) * 10 + n % 10 =
            a * (10 ^ (natCharsAux f (n / 10) []).length * 10) + (n / 10 * 10 + n % 10) := by ring
        rw [this, ← pow_succ]
        have h2 : n / 10 * 10 + n % 10 = n := by omega
        rw [h2]

theorem natChars_isDigit (n : Nat) : ∀ c ∈ natChars n, c.isDigit = true :=
  (natCharsAux_spec (n + 1) n (by omega)).1

theorem natChars_ne_nil (n : Nat) : natChars n ≠ [] :=
  (natCharsAux_spec (n + 1) n (by omega)).2.1

theorem digitsVal_natChars (n : Nat) : digitsVal 0 (natChars n) = n := by
  have := (natCharsAux_spec (n + 1) n (by omega)).2.2 0
  simpa using this

theorem natCharsAux_head_ne_zero (fuel : Nat) : ∀ n, n < fuel → 0 < n →
    ∀ c t, natCharsAux fuel n [] = c :: t → ¬c = '0' := by
  induction fuel with
  | zero => intro n hn; omega
  | succ f ih =>
    intro n hn hpos c t hct
    by_cases h : n < 10
    · simp only [natCharsAux, h, if_true] at hct
      injection hct with h1 _
      rw [← h1]
      exact digitChar_ne_zero n hpos h
    · have hdiv : n / 10 < f := by
        have h1 : n / 10 < n := Nat.div_lt_self (by omega) (by omega)
        omega
      have hrw : natCharsAux (f + 1) n [] =
          natCharsAux f (n / 10) [] ++ [Nat.digitChar (n % 10)] := by
        simp only [natCharsAux, h, if_false]
        exact natCharsAux_acc f (n / 10) [Nat.digitChar (n % 10)]
      rw [hrw] at hct
      cases hx : natCharsAux f (n / 10) [] with
      | nil => exact absurd hx (natCharsAux_spec f (n / 10) hdiv).2.1
      | cons c0 t0 =>
        rw [hx, List.cons_append] at hct
        injection hct with h1 _
        rw [← h1]
        exact ih (n / 10) hdiv (by omega) c0 t0 hx

theorem natChars_head_ne_zero (n : Nat) (hpos : 0 < n) (c : Char) (t : List Char)
    (h : natChars n = c :: t) : ¬c = '0' :=
  natCharsAux_head_ne_zero (n + 1) n (by omega) hpos c t h

theorem parseIntDigits_natChars (n : Nat) (rest : List Char) (h : numBoundary rest) :
    parseIntDigits (natChars n ++ rest) = some (n, rest) := by
  cases hx : natChars n with
  | nil => exact absurd hx (natChars_ne_nil n)
  | cons c t =>
    have hcd : c.isDigit = true := natChars_isDigit n c (by rw [hx]; simp)
    have htw : (natChars n ++ rest).takeWhile Char.isDigit = natChars n := by
      rw [List.takeWhile_append_of_pos (natChars_isDigit n)]
      cases rest with
      | nil => simp
      | cons c2 cs =>
        have hc : c2.isDigit = false := h.1
        simp [List.takeWhile_cons, hc]
    have hdw : (natChars n ++ rest).dropWhile Char.isDigit = rest := by
      rw [List.dropWhile_append_of_pos (natChars_isDigit n)]
      cases rest with
      | nil => simp
      | cons c2 cs =>
        have hc : c2.isDigit = false := h.1
        simp [List.dropWhile_cons, hc]
    by_cases hz : n = 0
    · subst hz
      have h0 : natChars 0 = ['0'] := rfl
      rw [h0] at hx
      injection hx with hc ht
      rw [← hc, ← ht, List.cons_append]
      rw [parseIntDigits.eq_def]
      simp
    · have hc0 : ¬c = '0' := natChars_head_ne_zero n (Nat.pos_of_ne_zero hz) c t hx
      rw [hx, List.cons_append] at htw hdw
      rw [List.cons_append, parseIntDigits.eq_def]
      simp only [if_neg hc0, hcd, if_true, htw, hdw]
      rw [← hx, digitsVal_natChars]

theorem parseFracExp_boundary (rest : List Char) (h : numBoundary rest) :
    parseFracExp rest = some (false, rest) := by
  cases rest with
  | nil => rfl
  | cons c r =>
    obtain ⟨h1, h2, h3, h4⟩ := h
    rw [parseFracExp.eq_def]
    simp only [if_neg h2, if_neg (show ¬(c = 'e' ∨ c = 'E') from fun hc => hc.elim h3 h4)]

theorem parseNumber_natChars (n : Nat) (rest : List Char) (hle : n ≤ maxSafeInt)
    (h : numBoundary rest) :
    parseNumber (natChars n ++ rest) = some (some (Int.ofNat n), rest) := by
  cases hx : natChars n with
  | nil => exact absurd hx (natChars_ne_nil n)
  | cons c t =>
    have hcd : c.isDigit = true := natChars_isDigit n c (by rw [hx]; simp)
    have hcm : ¬c = '-' := isDigit_ne_minus hcd
    have hpi := parseIntDigits_natChars n rest h
    rw [hx, List.cons_append] at hpi
    rw [List.cons_append, parseNumber.eq_def]
    simp only [if_neg hcm, parseNumAfter, hpi, parseFracExp_boundary rest h, mkNumResult]
    simp [hle]

theorem parseNumber_neg_natChars (m : Nat) (rest : List Char) (hle : m + 1 ≤ maxSafeInt)
    (h : numBoundary rest) :
    parseNumber ('-' :: (natChars (m + 1) ++ rest)) = some (some (Int.negSucc m), rest) := by
  rw [parseNumber.eq_def]
  simp only [if_pos rfl, parseNumAfter, parseIntDigits_natChars (m + 1) rest h,
    parseFracExp_boundary rest h, mkNumResult]
  simp only [Bool.false_eq_true, if_false, if_pos hle, if_pos rfl, Option.some.injEq,
    Prod.mk.injEq, and_true]
  rw [Int.negSucc_eq]
  push_cast
  ring_nf

/-! ## String escaping round trip -/

theorem hexVal_zero : hexVal '0' = some 0 := by rfl

theorem parseStrBody_esc (cs : List Char) : ∀ rest : List Char,
    parseStrBody (escChars cs ++ '"' :: rest) = some (some cs, rest) := by
  induction cs with
  | nil =>
    intro rest
    show parseStrBody ('"' :: rest) = some (some [], rest)
    rw [parseStrBody.eq_def]
    simp
  | cons c cs ih =>
    intro rest
    show parseStrBody ((escChar c ++ escChars cs) ++ '"' :: rest) = some (some (c :: cs), rest)
    rw [List.append_assoc]
    by_cases h1 : c = '"'
    · subst h1
      simp only [escChar, if_pos rfl, List.cons_append, List.nil_append]
      rw [parseStrBody.eq_def]
      simp [ih]
    by_cases h2 : c = '\\'
    · subst h2
      simp only [escChar, if_neg (by decide : ¬('\\' : Char) = '"'), if_pos rfl,
        List.cons_append, List.nil_append]
      rw [parseStrBody.eq_def]
      simp [ih]
    by_cases h3 : c.toNat = 8
    · have hc : c = Char.ofNat 8 := by rw [← Char.ofNat_toNat c, h3]
      subst hc
      simp only [escChar, if_neg h1, if_neg h2, if_pos h3, List.cons_append, List.nil_append]
      rw [parseStrBody.eq_def]
      simp [ih]
    by_cases h4 : c = '\t'
    · subst h4
      simp only [escChar, if_neg h1, if_neg h2, if_neg h3, if_pos rfl,
        List.cons_append, List.nil_append]
      rw [parseStrBody.eq_def]
      simp [ih]
    by_cases h5 : c = '\n'
    · subst h5
      simp only [escChar, if_neg h1, if_neg h2, if_neg h3, if_neg h4, if_pos rfl,
        List.cons_append, List.nil_append]
      rw [parseStrBody.eq_def]
      simp [ih]
    by_cases h6 : c.toNat = 12
    · have hc : c = Char.ofNat 12 := by rw [← Char.ofNat_toNat c, h6]
      subst hc
      simp only [escChar, if_neg h1, if_neg h2, if_neg h3, if_neg h4, if_neg h5, if_pos h6,
        List.cons_append, List.nil_append]
      rw [parseStrBody.eq_def]
      simp [ih]
    by_cases h7 : c = '\r'
    · subst h7
      simp only [escChar, if_neg h1, if_neg h2, if_neg h3, if_neg h4, if_neg h5, if_neg h6,
        if_pos rfl, List.cons_append, List.nil_append]
      rw [parseStrBody.eq_def]
      simp [ih]
    by_cases h8 : c.toNat < 32
    · have hhi : hexVal (Nat.digitChar (c.toNat / 16)) = some (c.toNat / 16) :=
        hexVal_digitChar _ (by omega)
      have hlo : hexVal (Nat.digitChar (c.toNat % 16)) = some (c.toNat % 16) :=
        hexVal_digitChar _ (by omega)
      have hns : ¬(55296 ≤ ((0 * 16 + 0) * 16 + c.toNat / 16) * 16 + c.toNat % 16 ∧
          ((0 * 16 + 0) * 16 + c.toNat / 16) * 16 + c.toNat % 16 ≤ 57343) := by omega
      simp only [escChar, if_neg h1, if_neg h2, if_neg h3, if_neg h4, if_neg h5, if_neg h6,
        if_neg h7, if_pos h8, List.cons_append, List.nil_append]
      rw [parseStrBody.eq_def]
      simp only [hexVal_zero, hhi, hlo, ih]
      simp only [if_neg (by decide : ¬('\\' : Char) = '"'), if_pos (rfl : ('\\' : Char) = '\\')]
      simp only [show ¬('u' : Char) = '"' from by decide, show ¬('u' : Char) = '\\' from by decide,
        show ¬('u' : Char) = '/' from by decide, show ¬('u' : Char) = 'b' from by decide,
        show ¬('u' : Char) = 'f' from by decide, show ¬('u' : Char) = 'n' from by decide,
        show ¬('u' : Char) = 'r' from by decide, show ¬('u' : Char) = 't' from by decide,
        ite_true, ite_false, if_pos (rfl : ('u' : Char) = 'u'), if_neg hns, Option.map_some]
      have hv : ((0 * 16 + 0) * 16 + c.toNat / 16) * 16 + c.toNat % 16 = c.toNat := by omega
      simp only [hv, Char.ofNat_toNat]
      rfl
    · simp only [escChar, if_neg h1, if_neg h2, if_neg h3, if_neg h4, if_neg h5, if_neg h6,
        if_neg h7, if_neg h8, List.cons_append, List.nil_append]
      rw [parseStrBody.eq_def]
      simp [h1, h2, h8, ih]

/-! ## Heads of rendered values -/

theorem renderV_head (d : Json) (k : Nat) :
    ∃ c t, renderV d k = c :: t ∧ c.isWhitespace = false ∧ c ≠ ']' := by
  cases d with
  | null => exact ⟨'n', _, rfl, by decide, by decide⟩
  | bool b =>
    cases b with
    | true => exact ⟨'t', _, rfl, by decide, by decide⟩
    | false => exact ⟨'f', _, rfl, by decide, by decide⟩
  | num n =>
    cases n with
    | ofNat m =>
      cases hx : natChars m with
      | nil => exact absurd hx (natChars_ne_nil m)
      | cons c t =>
        refine ⟨c, t, ?_, ?_, ?_⟩
        · show intChars (Int.ofNat m) = c :: t
          rw [intChars, hx]
        · exact isDigit_not_ws (natChars_isDigit m c (by rw [hx]; simp))
        · exact isDigit_ne_rbracket (natChars_isDigit m c (by rw [hx]; simp))
    | negSucc m =>
      exact ⟨'-', _, rfl, by decide, by decide⟩
  | str s => exact ⟨'"', _, rfl, by decide, by decide⟩
  | arr l =>
    cases l with
    | nil => exact ⟨'[', _, rfl, by decide, by decide⟩
    | cons x xs => exact ⟨'[', _, rfl, by decide, by decide⟩
  | obj m =>
    cases m with
    | nil => exact ⟨braceOpen, _, rfl, by decide, by decide⟩
    | cons key v ms => exact ⟨braceOpen, _, rfl, by decide, by decide⟩

theorem skipWs_renderV (d : Json) (k : Nat) (Z : List Char) :
    skipWs (renderV d k ++ Z) = renderV d k ++ Z := by
  obtain ⟨c, t, hr, hws, _⟩ := renderV_head d k
  rw [hr, List.cons_append]
  exact skipWs_cons_not c (t ++ Z) hws

theorem renderItemsV_eq (x : Json) (xs : JsonList) (k : Nat) :
    renderItemsV (JsonList.cons x xs) k = spc k ++ (renderV x k ++ itemsSep xs k) := by
  cases xs with
  | nil => simp [renderItemsV, itemsSep]
  | cons y ys => simp [renderItemsV, itemsSep]

theorem renderMembersV_eq (key : String) (v : Json) (ms : JsonObj) (k : Nat) :
    renderMembersV (JsonObj.cons key v ms) k =
      spc k ++ ('"' :: (escChars key.data ++ ('"' :: ':' :: ' ' :: (renderV v k ++ memSep ms k)))) := by
  cases ms with
  | nil => simp [renderMembersV, memSep]
  | cons key2 v2 ms2 => simp [renderMembersV, memSep]

/-! ## Printer–reader round trip -/


theorem skipWs_cons_ws (c : Char) (cs : List Char) (h : c.isWhitespace = true) :
    skipWs (c :: cs) = skipWs cs := by
  simp [skipWs, List.dropWhile_cons, h]

theorem skipWs_spc (k : Nat) (cs : List Char) : skipWs (spc k ++ cs) = skipWs cs :=
  skipWs_ws_append (spc k) cs (spc_ws k)

theorem braceOpen_not_digit : braceOpen.isDigit = false := by decide

theorem braceOpen_ne_minus : ¬braceOpen = '-' := by decide

theorem braceOpen_ne_quote : ¬braceOpen = '"' := by decide

theorem braceOpen_ne_lbracket : ¬braceOpen = '[' := by decide

theorem n_ne_braceOpen : ¬('n' : Char) = braceOpen := by decide

theorem t_ne_braceOpen : ¬('t' : Char) = braceOpen := by decide

theorem f_ne_braceOpen : ¬('f' : Char) = braceOpen := by decide

theorem quote_ne_braceClose : ¬('"' : Char) = braceClose := by decide

theorem braceClose_ne_comma : ¬braceClose = ',' := by decide

theorem n_not_numStart : ¬(('n' : Char).isDigit = true ∨ ('n' : Char) = '-') := by decide

theorem t_not_numStart : ¬(('t' : Char).isDigit = true ∨ ('t' : Char) = '-') := by decide

theorem f_not_numStart : ¬(('f' : Char).isDigit = true ∨ ('f' : Char) = '-') := by decide

theorem quote_not_numStart : ¬(('"' : Char).isDigit = true ∨ ('"' : Char) = '-') := by decide

theorem lbracket_not_numStart : ¬(('[' : Char).isDigit = true ∨ ('[' : Char) = '-') := by decide

theorem braceOpen_not_numStart : ¬(braceOpen.isDigit = true ∨ braceOpen = '-') := by decide

mutual

theorem rtV (d : Json) (k : Nat) (rest : List Char) (fuel : Nat)
    (hf : (renderV d k).length < fuel) (hwf : jsonWf d = true) (hr : numBoundary rest) :
    parseVal fuel (renderV d k ++ rest) = some (some d, rest) := by
  cases fuel with
  | zero => exact absurd hf (Nat.not_lt_zero _)
  | succ f =>
    cases d with
    | null =>
      show parseVal (f + 1) (['n', 'u', 'l', 'l'] ++ rest) = _
      rw [parseVal.eq_def]
      simp [eatLit, n_ne_braceOpen, n_not_numStart]
    | bool b =>
      cases b with
      | true =>
        show parseVal (f + 1) (['t', 'r', 'u', 'e'] ++ rest) = _
        rw [parseVal.eq_def]
        simp [eatLit, t_ne_braceOpen, t_not_numStart]
      | false =>
        show parseVal (f + 1) (['f', 'a', 'l', 's', 'e'] ++ rest) = _
        rw [parseVal.eq_def]
        simp [eatLit, f_ne_braceOpen, f_not_numStart]
    | num n =>
      have hn : n.natAbs ≤ maxSafeInt := by
        have h0 := hwf
        simp only [jsonWf, decide_eq_true_eq] at h0
        exact h0
      cases n with
      | ofNat m =>
        have hm : m ≤ maxSafeInt := by simpa using hn
        cases hx : natChars m with
        | nil => exact absurd hx (natChars_ne_nil m)
        | cons c t =>
          have hcd : c.isDigit = true := natChars_isDigit m c (by rw [hx]; simp)
          show parseVal (f + 1) (intChars (Int.ofNat m) ++ rest) = _
          rw [intChars, hx, List.cons_append, parseVal.eq_def]
          simp only [hcd, eq_self_iff_true, true_or, if_true]
          rw [← List.cons_append, ← hx, parseNumber_natChars m rest hm hr]
          rfl
      | negSucc m =>
        have hm : m + 1 ≤ maxSafeInt := by simpa using hn
        show parseVal (f + 1) (('-' :: natChars (m + 1)) ++ rest) = _
        rw [List.cons_append, parseVal.eq_def]
        simp only [show (('-' : Char).isDigit = true ∨ ('-' : Char) = '-') from Or.inr rfl,
          if_true]
        rw [parseNumber_neg_natChars m rest hm hr]
        rfl
    | str s =>
      show parseVal (f + 1) (('"' :: (escChars s.data ++ ['"'])) ++ rest) = _
      rw [List.cons_append, List.append_assoc, List.singleton_append, parseVal.eq_def]
      simp only [quote_not_numStart, if_false, if_pos (rfl : ('"' : Char) = '"')]
      rw [parseStrBody_esc s.data rest]
      rfl
    | arr l =>
      cases l with
      | nil =>
        show parseVal (f + 1) (['[', ']'] ++ rest) = _
        rw [parseVal.eq_def]
        have hsk : skipWs (']' :: rest) = ']' :: rest := skipWs_cons_not _ _ (by decide)
        simp [hsk]
      | cons x xs =>
        show parseVal (f + 1)
          (('[' :: '\n' :: (renderItemsV (JsonList.cons x xs) (k + 2) ++
            ('\n' :: (spc k ++ [']'])))) ++ rest) = _
        rw [List.cons_append, List.cons_append, parseVal.eq_def]
        have hlen : (renderItemsV (JsonList.cons x xs) (k + 2)).length + k + 4 < f + 1 := by
          have hh := hf
          simp only [renderV, List.length_cons, List.length_append, spc,
            List.length_replicate, List.length_singleton] at hh
          omega
        have hin : (renderItemsV (JsonList.cons x xs) (k + 2) ++ ('\n' :: (spc k ++ [']']))) ++ rest
            = renderItemsV (JsonList.cons x xs) (k + 2) ++ ('\n' :: (spc k ++ (']' :: rest))) := by
          simp [List.append_assoc]
        rw [hin]
        obtain ⟨c0, t0, hr0, hws0, hne0⟩ := renderV_head x (k + 2)
        have hskip : skipWs ('\n' :: (renderItemsV (JsonList.cons x xs) (k + 2) ++
            ('\n' :: (spc k ++ (']' :: rest))))) =
            renderV x (k + 2) ++ (itemsSep xs (k + 2) ++ ('\n' :: (spc k ++ (']' :: rest)))) := by
          rw [skipWs_cons_ws _ _ (by decide), renderItemsV_eq]
          simp only [List.append_assoc]
          rw [skipWs_spc, skipWs_renderV]
        simp only [lbracket_not_numStart, if_false,
          show ¬('[' : Char) = '"' from by decide,
          if_pos (rfl : ('[' : Char) = '['), hskip]
        rw [hr0]
        simp only [List.cons_append, List.head?_cons]
        rw [if_neg (fun hcon => hne0 (Option.some.inj hcon))]
        have hwl : jsonListWf (JsonList.cons x xs) = true := by
          have h0 := hwf
          simp only [jsonWf] at h0
          exact h0
        have hit : parseItems f ('\n' :: (renderItemsV (JsonList.cons x xs) (k + 2) ++
            ('\n' :: (spc k ++ (']' :: rest))))) = some (some (JsonList.cons x xs), rest) := by
          have h0 := rtItems x xs (k + 2) k rest f ['\n']
            (by intro c hc; rcases List.mem_singleton.mp hc with h; subst h; rfl)
            (by omega) (by omega) hwl
          simpa using h0
        rw [hit]
        rfl
    | obj mm =>
      cases mm with
      | nil =>
        show parseVal (f + 1) ([braceOpen, braceClose] ++ rest) = _
        rw [parseVal.eq_def]
        have hsk : skipWs (braceClose :: rest) = braceClose :: rest :=
          skipWs_cons_not _ _ (by decide)
        simp [hsk, braceOpen_not_numStart, braceOpen_ne_quote, braceOpen_ne_lbracket]
      | cons key v ms =>
        show parseVal (f + 1)
          ((braceOpen :: '\n' :: (renderMembersV (JsonObj.cons key v ms) (k + 2) ++
            ('\n' :: (spc k ++ [braceClose])))) ++ rest) = _
        rw [List.cons_append, List.cons_append, parseVal.eq_def]
        have hlen : (renderMembersV (JsonObj.cons key v ms) (k + 2)).length + k + 4 < f + 1 := by
          have hh := hf
          simp only [renderV, List.length_cons, List.length_append, spc,
            List.length_replicate, List.length_singleton] at hh
          omega
        have hin : (renderMembersV (JsonObj.cons key v ms) (k + 2) ++
            ('\n' :: (spc k ++ [braceClose]))) ++ rest
            = renderMembersV (JsonObj.cons key v ms) (k + 2) ++
              ('\n' :: (spc k ++ (braceClose :: rest))) := by
          simp [List.append_assoc]
        rw [hin]
        have hskip : skipWs ('\n' :: (renderMembersV (JsonObj.cons key v ms) (k + 2) ++
            ('\n' :: (spc k ++ (braceClose :: rest))))) =
            '"' :: (escChars key.data ++ ('"' :: ':' :: ' ' :: (renderV v (k + 2) ++
              (memSep ms (k + 2) ++ ('\n' :: (spc k ++ (braceClose :: rest))))))) := by
          rw [skipWs_cons_ws _ _ (by decide), renderMembersV_eq]
          simp only [List.append_assoc, List.cons_append]
          rw [skipWs_spc]
          exact skipWs_cons_not _ _ (by decide)
        have hwo : jsonObjWf (JsonObj.cons key v ms) = true := by
          have h0 := hwf
          simp only [jsonWf] at h0
          exact h0
        have hmem : parseMembers f ('\n' :: (renderMembersV (JsonObj.cons key v ms) (k + 2) ++
            ('\n' :: (spc k ++ (braceClose :: rest))))) =
            some (some (JsonObj.cons key v ms), rest) := by
          have h0 := rtMembers key v ms (k + 2) k rest f ['\n']
            (by intro c hc; rcases List.mem_singleton.mp hc with h; subst h; rfl)
            (by omega) (by omega) hwo
          simpa using h0
        simp [hskip, hmem, braceOpen_not_numStart, braceOpen_ne_quote,
          braceOpen_ne_lbracket, quote_ne_braceClose]
termination_by sizeOf d

theorem rtItems (x : Json) (xs : JsonList) (k k' : Nat) (rest : List Char) (fuel : Nat)
    (pre : List Char) (hpre : ∀ c ∈ pre, c.isWhitespace = true)
    (hf : (renderItemsV (JsonList.cons x xs) k).length < fuel) (hk : 1 ≤ k)
    (hwf : jsonListWf (JsonList.cons x xs) = true) :
    parseItems fuel (pre ++ (renderItemsV (JsonList.cons x xs) k ++
      ('\n' :: (spc k' ++ (']' :: rest))))) = some (some (JsonList.cons x xs), rest) := by
  cases fuel with
  | zero => exact absurd hf (Nat.not_lt_zero _)
  | succ f =>
    rw [parseItems.eq_2]
    have hskip : skipWs (pre ++ (renderItemsV (JsonList.cons x xs) k ++
        ('\n' :: (spc k' ++ (']' :: rest))))) =
        renderV x k ++ (itemsSep xs k ++ ('\n' :: (spc k' ++ (']' :: rest)))) := by
      rw [skipWs_ws_append pre _ hpre, renderItemsV_eq]
      simp only [List.append_assoc]
      rw [skipWs_spc, skipWs_renderV]
    rw [hskip]
    have hlenx : (renderV x k).length < f := by
      have hh := hf
      rw [renderItemsV_eq] at hh
      simp only [List.length_append, spc, List.length_replicate] at hh
      omega
    have hwx : jsonWf x = true ∧ jsonListWf xs = true := by
      have h0 := hwf
      simp only [jsonListWf, Bool.and_eq_true] at h0
      exact h0
    have hnd2 : numBoundary (itemsSep xs k ++ ('\n' :: (spc k' ++ (']' :: rest)))) := by
      cases xs with
      | nil => exact ⟨by decide, by decide, by decide, by decide⟩
      | cons y ys => exact ⟨by decide, by decide, by decide, by decide⟩
    rw [rtV x k _ f hlenx hwx.1 hnd2]
    cases xs with
    | nil =>
      have hsk2 : skipWs (itemsSep JsonList.nil k ++ ('\n' :: (spc k' ++ (']' :: rest)))) =
          ']' :: rest := by
        simp only [itemsSep, List.nil_append]
        rw [skipWs_cons_ws _ _ (by decide), skipWs_spc]
        exact skipWs_cons_not _ _ (by decide)
      simp [hsk2, consOptL]
    | cons y ys =>
      have hsk2 : skipWs (itemsSep (JsonList.cons y ys) k ++ ('\n' :: (spc k' ++ (']' :: rest)))) =
          ',' :: ('\n' :: (renderItemsV (JsonList.cons y ys) k ++
            ('\n' :: (spc k' ++ (']' :: rest))))) := by
        simp only [itemsSep, List.cons_append]
        exact skipWs_cons_not _ _ (by decide)
      have hit : parseItems f ('\n' :: (renderItemsV (JsonList.cons y ys) k ++
          ('\n' :: (spc k' ++ (']' :: rest))))) = some (some (JsonList.cons y ys), rest) := by
        have h0 := rtItems y ys k k' rest f ['\n']
          (by intro c hc; rcases List.mem_singleton.mp hc with h; subst h; rfl)
          (by
            have hh := hf
            rw [renderItemsV_eq] at hh
            simp only [List.length_append, spc, List.length_replicate, itemsSep,
              List.length_cons] at hh
            omega) hk hwx.2
        simpa using h0
      simp [hsk2, hit, consOptL]
termination_by sizeOf (JsonList.cons x xs)

theorem rtMembers (key : String) (v : Json) (ms : JsonObj) (k k' : Nat) (rest : List Char)
    (fuel : Nat) (pre : List Char) (hpre : ∀ c ∈ pre, c.isWhitespace = true)
    (hf : (renderMembersV (JsonObj.cons key v ms) k).length < fuel) (hk : 1 ≤ k)
    (hwf : jsonObjWf (JsonObj.cons key v ms) = true) :
    parseMembers fuel (pre ++ (renderMembersV (JsonObj.cons key v ms) k ++
      ('\n' :: (spc k' ++ (braceClose :: rest))))) =
      some (some (JsonObj.cons key v ms), rest) := by
  cases fuel with
  | zero => exact absurd hf (Nat.not_lt_zero _)
  | succ f =>
    rw [parseMembers.eq_2]
    have hskip : skipWs (pre ++ (renderMembersV (JsonObj.cons key v ms) k ++
        ('\n' :: (spc k' ++ (braceClose :: rest))))) =
        '"' :: (escChars key.data ++ ('"' :: ':' :: ' ' :: (renderV v k ++
          (memSep ms k ++ ('\n' :: (spc k' ++ (braceClose :: rest))))))) := by
      rw [skipWs_ws_append pre _ hpre, renderMembersV_eq]
      simp only [List.append_assoc, List.cons_append]
      rw [skipWs_spc]
      exact skipWs_cons_not _ _ (by decide)
    rw [hskip]
    have hstr := parseStrBody_esc key.data (':' :: (' ' :: (renderV v k ++
      (memSep ms k ++ ('\n' :: (spc k' ++ (braceClose :: rest)))))))
    have hsk1 : skipWs (':' :: (' ' :: (renderV v k ++ (memSep ms k ++
        ('\n' :: (spc k' ++ (braceClose :: rest))))))) =
        ':' :: (' ' :: (renderV v k ++ (memSep ms k ++
          ('\n' :: (spc k' ++ (braceClose :: rest)))))) :=
      skipWs_cons_not _ _ (by decide)
    have hsk2 : skipWs (' ' :: (renderV v k ++ (memSep ms k ++
        ('\n' :: (spc k' ++ (braceClose :: rest)))))) =
        renderV v k ++ (memSep ms k ++ ('\n' :: (spc k' ++ (braceClose :: rest)))) := by
      rw [skipWs_cons_ws _ _ (by decide), skipWs_renderV]
    have hlenv : (renderV v k).length < f := by
      have hh := hf
      rw [renderMembersV_eq] at hh
      simp only [List.length_append, spc, List.length_replicate, List.length_cons] at hh
      omega
    have hw3 : jsonWf v = true ∧ objHasKey ms key = false ∧ jsonObjWf ms = true := by
      have h0 := hwf
      simp only [jsonObjWf, Bool.and_eq_true, Bool.not_eq_true'] at h0
      exact ⟨h0.1.1, h0.1.2, h0.2⟩
    have hnd2 : numBoundary (memSep ms k ++ ('\n' :: (spc k' ++ (braceClose :: rest)))) := by
      cases ms with
      | nil => exact ⟨by decide, by decide, by decide, by decide⟩
      | cons key2 v2 ms2 => exact ⟨by decide, by decide, by decide, by decide⟩
    have hval := rtV v k (memSep ms k ++ ('\n' :: (spc k' ++ (braceClose :: rest)))) f hlenv
      hw3.1 hnd2
    have hkey : String.mk key.data = key := rfl
    cases ms with
    | nil =>
      have hsk3 : skipWs (memSep JsonObj.nil k ++ ('\n' :: (spc k' ++ (braceClose :: rest)))) =
          braceClose :: rest := by
        simp only [memSep, List.nil_append]
        rw [skipWs_cons_ws _ _ (by decide), skipWs_spc]
        exact skipWs_cons_not _ _ (by decide)
      simp [hstr, hsk1, hsk2, hsk3, hval, hkey, braceClose_ne_comma, consOptO, objHasKey]
    | cons key2 v2 ms2 =>
      have hsk3 : skipWs (memSep (JsonObj.cons key2 v2 ms2) k ++
          ('\n' :: (spc k' ++ (braceClose :: rest)))) =
          ',' :: ('\n' :: (renderMembersV (JsonObj.cons key2 v2 ms2) k ++
            ('\n' :: (spc k' ++ (braceClose :: rest))))) := by
        simp only [memSep, List.cons_append]
        exact skipWs_cons_not _ _ (by decide)
      have hmem : parseMembers f ('\n' :: (renderMembersV (JsonObj.cons key2 v2 ms2) k ++
          ('\n' :: (spc k' ++ (braceClose :: rest))))) =
          some (some (JsonObj.cons key2 v2 ms2), rest) := by
        have h0 := rtMembers key2 v2 ms2 k k' rest f ['\n']
          (by intro c hc; rcases List.mem_singleton.mp hc with h; subst h; rfl)
          (by
            have hh := hf
            rw [renderMembersV_eq] at hh
            simp only [List.length_append, spc, List.length_replicate, memSep,
              List.length_cons] at hh
            omega) hk hw3.2.2
        simpa using h0
      simp [hstr, hsk1, hsk2, hsk3, hval, hkey, hmem, braceClose_ne_comma, consOptO,
        hw3.2.1]
termination_by sizeOf (JsonObj.cons key v ms)

end

theorem Json.parse_stringify (d : Json) (hwf : jsonWf d = true) :
    Json.parse (Json.stringify d) = some (some d) := by
  have h2 : parseVal ((renderV d 0).length + 1) (renderV d 0) = some (some d, []) := by
    have h0 := rtV d 0 [] ((renderV d 0).length + 1) (by omega) hwf trivial
    simpa using h0
  have h1 : skipWs (renderV d 0) = renderV d 0 := by
    have h0 := skipWs_renderV d 0 []
    simpa using h0
  have h3 : skipWs ([] : List Char) = [] := rfl
  simp [Json.parse, Json.stringify, h1, h2, h3]

/-! ## Temp store lemmas -/

theorem lookupT_eraseT_self (l : List TempEntry) (x : String) :
    lookupT (eraseT l x) x = none := by
  induction l with
  | nil => rfl
  | cons e es ih =>
    by_cases h : e.name = x
    · simpa [eraseT, h]
    · simpa [eraseT, lookupT, h]

theorem lookupT_eraseT_ne (l : List TempEntry) (x y : String) (h : x ≠ y) :
    lookupT (eraseT l y) x = lookupT l x := by
  induction l with
  | nil => rfl
  | cons e es ih =>
    by_cases he : e.name = y
    · have hyx : ¬y = x := fun hc => h hc.symm
      simp [eraseT, lookupT, he, hyx, ih]
    · simp only [eraseT, he, if_false, lookupT]
      by_cases hx : e.name = x
      · simp [hx]
      · simp [hx, ih]

theorem lookupT_none_eraseT (l : List TempEntry) (x y : String)
    (h : lookupT l x = none) : lookupT (eraseT l y) x = none := by
  by_cases hxy : x = y
  · subst hxy; exact lookupT_eraseT_self l x
  · rw [lookupT_eraseT_ne l x y hxy]; exact h

theorem combineLoop_absent (ids : List String) : ∀ (t : List TempEntry) (x : String),
    lookupT t x = none → lookupT (combineLoop t ids).1 x = none := by
  induction ids with
  | nil => intro t x h; exact h
  | cons id rest ih =>
    intro t x h
    simp only [combineLoop]
    cases hl : lookupT t id with
    | none => exact h
    | some c =>
      have h2 : lookupT (eraseT t id) x = none := lookupT_none_eraseT t x id h
      have h3 := ih (eraseT t id) x h2
      cases hc : combineLoop (eraseT t id) rest with
      | mk t' r =>
        cases r with
        | none => rw [hc] at h3; exact h3
        | some s => rw [hc] at h3; exact h3

theorem combineLoop_deleted (ids : List String) : ∀ (t t' : List TempEntry) (s : String),
    combineLoop t ids = (t', some s) → ∀ id ∈ ids, lookupT t' id = none := by
  induction ids with
  | nil => intro t t' s h id hid; exact absurd hid (List.not_mem_nil id)
  | cons id0 rest ih =>
    intro t t' s h idq hidq
    simp only [combineLoop] at h
    cases hl : lookupT t id0 with
    | none => rw [hl] at h; simp at h
    | some c =>
      rw [hl] at h
      cases hc : combineLoop (eraseT t id0) rest with
      | mk t2 r =>
        rw [hc] at h
        cases r with
        | none => simp at h
        | some s2 =>
          simp at h
          obtain ⟨ht2, hs⟩ := h
          rcases List.mem_cons.mp hidq with h1 | h1
          · rw [h1]
            have ha := combineLoop_absent rest (eraseT t id0) id0 (lookupT_eraseT_self t id0)
            rw [hc] at ha
            rw [← ht2]
            exact ha
          · rw [← ht2]
            exact ih (eraseT t id0) t2 s2 hc idq h1

theorem sweepRun_noFail (now : Int) (temp : List TempEntry) :
    sweepRun now (fun _ => false) temp =
      (temp.filter (fun e => decide (now - e.mtimeMs ≤ oneHourMs)), false) := by
  induction temp with
  | nil => rfl
  | cons e rest ih =>
    by_cases h : now - e.mtimeMs > oneHourMs
    · have hd : decide (now - e.mtimeMs ≤ oneHourMs) = false := by
        rw [decide_eq_false_iff_not]
        omega
      have hstep : sweepRun now (fun _ => false) (e :: rest) =
          sweepRun now (fun _ => false) rest := by
        simp only [sweepRun, if_pos h]
        rfl
      rw [hstep, ih, List.filter_cons, hd]
      rw [if_neg (by simp)]
    · have hd : decide (now - e.mtimeMs ≤ oneHourMs) = true := by
        rw [decide_eq_true_iff]
        omega
      have hstep : sweepRun now (fun _ => false) (e :: rest) =
          (e :: (sweepRun now (fun _ => false) rest).1,
            (sweepRun now (fun _ => false) rest).2) := by
        simp only [sweepRun, if_neg h]
      rw [hstep, ih, List.filter_cons, hd]
      rw [if_pos (by simp)]

theorem cleanupTempFiles_noFail (now : Int) (temp : List TempEntry) :
    cleanupTempFiles now (fun _ => false) temp =
      temp.filter (fun e => decide (now - e.mtimeMs ≤ oneHourMs)) := by
  unfold cleanupTempFiles
  rw [sweepRun_noFail]

theorem sweepRun_abort (now : Int) (fails : String → Bool) (e : TempEntry)
    (suf : List TempEntry) (he : now - e.mtimeMs > oneHourMs) (hfe : fails e.name = true) :
    ∀ pre : List TempEntry, (∀ x ∈ pre, fails x.name = false) →
    sweepRun now fails (pre ++ e :: suf) =
      (pre.filter (fun x => decide (now - x.mtimeMs ≤ oneHourMs)) ++ e :: suf, true) := by
  intro pre
  induction pre with
  | nil =>
    intro _
    simp [sweepRun, he, hfe]
  | cons x xs ih =>
    intro hp
    have hx : fails x.name = false := hp x (by simp)
    have ihx := ih (fun y hy => hp y (by simp [hy]))
    by_cases hxs : now - x.mtimeMs > oneHourMs
    · have hd : decide (now - x.mtimeMs ≤ oneHourMs) = false := by
        rw [decide_eq_false_iff_not]
        omega
      have hstep : sweepRun now fails ((x :: xs) ++ e :: suf) =
          sweepRun now fails (xs ++ e :: suf) := by
        rw [List.cons_append]
        simp only [sweepRun, if_pos hxs, hx]
        rfl
      rw [hstep, ihx, List.filter_cons, hd]
      rw [if_neg (by simp)]
    · have hd : decide (now - x.mtimeMs ≤ oneHourMs) = true := by
        rw [decide_eq_true_iff]
        omega
      have hstep : sweepRun now fails ((x :: xs) ++ e :: suf) =
          (x :: (sweepRun now fails (xs ++ e :: suf)).1,
            (sweepRun now fails (xs ++ e :: suf)).2) := by
        rw [List.cons_append]
        simp only [sweepRun, if_neg hxs]
      rw [hstep, ihx, List.filter_cons, hd]
      rw [if_pos (by simp)]
      simp

/-! ## Lexicographic string order lemmas -/

theorem charListLt_irrefl (a : List Char) : charListLt a a = false := by
  induction a with
  | nil => rfl
  | cons c cs ih => simp [charListLt, lt_irrefl, ih]

theorem charListLt_asymm (a : List Char) : ∀ b, charListLt a b = true → charListLt b a = false := by
  induction a with
  | nil =>
    intro b hb
    cases b with
    | nil => rfl
    | cons y ys => rfl
  | cons x xs ih =>
    intro b hb
    cases b with
    | nil => simp [charListLt] at hb
    | cons y ys =>
      by_cases h1 : x < y
      · have h2 : ¬y < x := lt_asymm h1
        simp [charListLt, h1, h2]
      · by_cases h2 : y < x
        · simp [charListLt, h1, h2] at hb
        · simp only [charListLt, h1, if_false, h2] at hb ⊢
          exact ih ys hb

theorem charListLt_eq_of_not_lt (a : List Char) : ∀ b, charListLt a b = false →
    charListLt b a = false → a = b := by
  induction a with
  | nil =>
    intro b hab hba
    cases b with
    | nil => rfl
    | cons y ys => simp [charListLt] at hab
  | cons x xs ih =>
    intro b hab hba
    cases b with
    | nil => simp [charListLt] at hba
    | cons y ys =>
      by_cases h1 : x < y
      · simp [charListLt, h1] at hab
      · by_cases h2 : y < x
        · simp [charListLt, h2, lt_asymm h2] at hba
        · have hxy : x = y := le_antisymm (not_lt.mp h2) (not_lt.mp h1)
          subst hxy
          simp only [charListLt, lt_irrefl, if_false] at hab hba
          rw [ih ys hab hba]

theorem charListLt_trans (a : List Char) : ∀ b c, charListLt a b = true →
    charListLt b c = true → charListLt a c = true := by
  induction a with
  | nil =>
    intro b c hab hbc
    cases b with
    | nil => simp [charListLt] at hab
    | cons y ys =>
      cases c with
      | nil => simp [charListLt] at hbc
      | cons z zs => rfl
  | cons x xs ih =>
    intro b c hab hbc
    cases b with
    | nil => simp [charListLt] at hab
    | cons y ys =>
      cases c with
      | nil => simp [charListLt] at hbc
      | cons z zs =>
        by_cases h1 : x < y
        · by_cases h2 : y < z
          · have : x < z := lt_trans h1 h2
            simp [charListLt, this]
          · by_cases h3 : z < y
            · simp [charListLt, h2, h3] at hbc
            · have hyz : y = z := le_antisymm (not_lt.mp h3) (not_lt.mp h2)
              subst hyz
              simp [charListLt, h1]
        · by_cases h4 : y < x
          · simp [charListLt, h1, h4] at hab
          · have hxy : x = y := le_antisymm (not_lt.mp h4) (not_lt.mp h1)
            subst hxy
            simp only [charListLt, lt_irrefl, if_false] at hab
            by_cases h2 : x < z
            · simp [charListLt, h2]
            · by_cases h3 : z < x
              · simp [charListLt, h2, h3] at hbc
              · simp only [charListLt, h2, if_false, h3] at hbc ⊢
                exact ih ys zs hab hbc

theorem string_data_inj (a b : String) (h : a.data = b.data) : a = b := by
  cases a with
  | mk d1 =>
    cases b with
    | mk d2 =>
      simp only at h
      rw [h]

theorem strLeB_refl (a : String) : strLeB a a = true := by
  simp [strLeB, strLtB, charListLt_irrefl]

theorem strLeB_total (a b : String) : strLeB a b = true ∨ strLeB b a = true := by
  by_cases h : charListLt b.data a.data = true
  · right
    simp [strLeB, strLtB, charListLt_asymm b.data a.data h]
  · left
    simp only [strLeB, strLtB, Bool.not_eq_true'] at *
    simp [h]

theorem strLeB_trans (a b c : String) (hab : strLeB a b = true) (hbc : strLeB b c = true) :
    strLeB a c = true := by
  simp only [strLeB, strLtB, Bool.not_eq_true'] at *
  by_cases hca : charListLt c.data a.data = true
  · by_cases hab2 : charListLt a.data b.data = true
    · by_cases hbc2 : charListLt b.data c.data = true
      · have := charListLt_trans a.data b.data c.data hab2 hbc2
        rw [charListLt_asymm a.data c.data this] at hca
        exact absurd hca (by simp)
      · rw [Bool.not_eq_true] at hbc2
        have hbeqc : b.data = c.data := charListLt_eq_of_not_lt b.data c.data hbc2 hbc
        rw [← hbeqc] at hca
        rw [charListLt_asymm a.data b.data hab2] at hca
        exact absurd hca (by simp)
    · rw [Bool.not_eq_true] at hab2
      have haeqb : a.data = b.data := charListLt_eq_of_not_lt a.data b.data hab2 hab
      rw [← haeqb] at hbc
      rw [hca] at hbc
      exact absurd hbc (by simp)
  · simp at hca
    exact hca

theorem strLeB_antisymm (a b : String) (hab : strLeB a b = true) (hba : strLeB b a = true) :
    a = b := by
  simp only [strLeB, strLtB, Bool.not_eq_true'] at *
  exact string_data_inj a b (charListLt_eq_of_not_lt a.data b.data hba hab)

/-! ## Sort lemmas -/

theorem mem_insertLe (a x : String) (l : List String) :
    a ∈ insertLe x l ↔ a = x ∨ a ∈ l := by
  induction l with
  | nil => simp [insertLe]
  | cons y ys ih =>
    by_cases h : strLeB x y = true
    · simp [insertLe, h]
    · rw [insertLe, if_neg h]
      simp only [List.mem_cons, ih]
      tauto

theorem pairwise_insertLe (x : String) (l : List String)
    (h : l.Pairwise (fun u v => strLeB u v = true)) :
    (insertLe x l).Pairwise (fun u v => strLeB u v = true) := by
  induction l with
  | nil => simp [insertLe]
  | cons y ys ih =>
    obtain ⟨hhead, htail⟩ := List.pairwise_cons.mp h
    by_cases hxy : strLeB x y = true
    · rw [insertLe, if_pos hxy]
      refine List.pairwise_cons.mpr ⟨?_, h⟩
      intro z hz
      rcases List.mem_cons.mp hz with h1 | h1
      · rw [h1]; exact hxy
      · exact strLeB_trans x y z hxy (hhead z h1)
    · rw [insertLe, if_neg hxy]
      refine List.pairwise_cons.mpr ⟨?_, ih htail⟩
      intro z hz
      rcases (mem_insertLe z x ys).mp hz with h1 | h1
      · rw [h1]
        rcases strLeB_total x y with h2 | h2
        · exact absurd h2 hxy
        · exact h2
      · exact hhead z h1

theorem pairwise_sortLe (l : List String) :
    (sortLe l).Pairwise (fun u v => strLeB u v = true) := by
  induction l with
  | nil => simp [sortLe]
  | cons x xs ih => exact pairwise_insertLe x (sortLe xs) ih

theorem mem_sortLe (a : String) (l : List String) : a ∈ sortLe l ↔ a ∈ l := by
  induction l with
  | nil => simp [sortLe]
  | cons x xs ih =>
    simp only [sortLe, mem_insertLe, List.mem_cons, ih]

theorem pairwise_last_ub (l : List String) (h : l.Pairwise (fun u v => strLeB u v = true))
    (m : String) (hm : l.reverse.head? = some m) : m ∈ l ∧ ∀ y ∈ l, strLeB y m = true := by
  induction l with
  | nil => simp at hm
  | cons a l' ih =>
    obtain ⟨hhead, htail⟩ := List.pairwise_cons.mp h
    rcases l' with _ | ⟨b, l''⟩
    · have hma : a = m := by simpa using hm
      subst hma
      refine ⟨by simp, ?_⟩
      intro y hy
      simp at hy
      subst hy
      exact strLeB_refl _
    · have hne : (b :: l'').reverse ≠ [] := by simp
      cases hrev : (b :: l'').reverse with
      | nil => exact absurd hrev hne
      | cons c t =>
        have hh : (a :: b :: l'').reverse.head? = some c := by
          rw [List.reverse_cons, hrev]
          simp
        rw [hh] at hm
        have hcm : c = m := by injection hm
        have hmem : (b :: l'').reverse.head? = some m := by
          rw [hrev, List.head?_cons, hcm]
        obtain ⟨hm1, hm2⟩ := ih htail hmem
        refine ⟨by simp [hm1], ?_⟩
        intro y hy
        rcases List.mem_cons.mp hy with h1 | h1
        · rw [h1]
          exact hhead m hm1
        · exact hm2 y h1

/-! ## Backup store lemmas -/

theorem lookupB_writeB_self (l : List (String × String)) (f c : String) :
    lookupB (writeB l f c) f = some c := by
  simp [writeB, lookupB]

theorem mem_map_fst_eraseB (l : List (String × String)) (f x : String)
    (h : x ∈ (eraseB l f).map Prod.fst) : x ∈ l.map Prod.fst := by
  induction l with
  | nil => simp [eraseB] at h
  | cons p ps ih =>
    by_cases hp : p.1 = f
    · rw [eraseB, if_pos hp] at h
      simp [ih h]
    · rw [eraseB, if_neg hp] at h
      rcases List.mem_cons.mp h with h1 | h1
      · simp [h1]
      · simp [ih h1]

theorem isSuffixOf_append_self (A B : List Char) : List.isSuffixOf A (B ++ A) = true := by
  rw [List.isSuffixOf_iff_suffix]
  exact List.suffix_append B A

theorem backupFilename_endsWith (ts : Nat) :
    strEndsWith (backupFilename ts) ".json" = true := by
  have hdata : (backupFilename ts).data =
      ("backup_" ++ String.mk ((toISOString ts).data.map dashRepl)).data ++ ".json".data := rfl
  rw [strEndsWith, hdata]
  exact isSuffixOf_append_self _ _

theorem getBackup_found (st : ServerState) (m content : String) (d : Json)
    (hm : m ∈ (st.backups.map Prod.fst).filter (fun f => strEndsWith f ".json"))
    (hub : ∀ y ∈ (st.backups.map Prod.fst).filter (fun f => strEndsWith f ".json"),
      strLeB y m = true)
    (hlook : lookupB st.backups m = some content)
    (hparse : Json.parse content = some (some d)) :
    getBackup st = ⟨200, true, none, some d, none⟩ := by
  have hfiles_ne : st.backups.map Prod.fst ≠ [] := by
    intro h0
    rw [h0] at hm
    simp at hm
  have hEmpty : (st.backups.map Prod.fst).isEmpty = false := by
    cases hb : st.backups.map Prod.fst with
    | nil => exact absurd hb hfiles_ne
    | cons p ps => rfl
  have hsne : sortLe ((st.backups.map Prod.fst).filter (fun f => strEndsWith f ".json")) ≠ [] := by
    intro h0
    have hmem := (mem_sortLe m _).mpr hm
    rw [h0] at hmem
    simp at hmem
  obtain ⟨c, t, hrev⟩ : ∃ c t,
      (sortLe ((st.backups.map Prod.fst).filter (fun f => strEndsWith f ".json"))).reverse
        = c :: t := by
    cases hr : (sortLe ((st.backups.map Prod.fst).filter
        (fun f => strEndsWith f ".json"))).reverse with
    | nil =>
      have : sortLe ((st.backups.map Prod.fst).filter (fun f => strEndsWith f ".json")) = [] := by
        simpa using congrArg List.reverse hr
      exact absurd this hsne
    | cons c t => exact ⟨c, t, rfl⟩
  have hhead : (sortLe ((st.backups.map Prod.fst).filter
      (fun f => strEndsWith f ".json"))).reverse.head? = some c := by
    rw [hrev]
    rfl
  obtain ⟨hc_mem_s, hc_ub_s⟩ := pairwise_last_ub _ (pairwise_sortLe _) c hhead
  have hc_mem : c ∈ (st.backups.map Prod.fst).filter (fun f => strEndsWith f ".json") :=
    (mem_sortLe c _).mp hc_mem_s
  have hcm : c = m :=
    strLeB_antisymm c m (hub c hc_mem) (hc_ub_s m ((mem_sortLe m _).mpr hm))
  rw [hcm] at hhead
  simp [getBackup, hEmpty, hhead, hlook, hparse]

/-! ## Claim theorems -/

/-- Claim C2: when the concatenation of the (successfully read) chunks does
not parse, combine answers a failure envelope, leaves the backup store
untouched, and does not restore the chunks already deleted: every supplied
chunk id is gone from the temp store afterwards. -/
theorem combine_parse_failure_no_rollback (st : ServerState) (chunkIds : List String)
    (timestamp : Nat) (t' : List TempEntry) (s : String)
    (hloop : combineLoop st.temp chunkIds = (t', some s))
    (hparse : Json.parse s = none) :
    combine st chunkIds timestamp = ({ st with temp := t' }, combineFail) ∧
    combineFail.status = 500 ∧ combineFail.success = false ∧
    ({ st with temp := t' } : ServerState).backups = st.backups ∧
    (∀ id ∈ chunkIds, lookupT t' id = none) := by
  refine ⟨?_, rfl, rfl, rfl, ?_⟩
  · simp only [combine, hloop, hparse]
  · exact combineLoop_deleted chunkIds st.temp t' s hloop

/-- Witness for C2: a single chunk `x` is read and deleted, the parse fails,
and the chunk is not restored. -/
theorem combine_parse_failure_no_rollback_witness :
    combine ⟨[⟨"c", "x", 0⟩], []⟩ ["c"] 0 =
      ({ temp := [], backups := [] }, combineFail) ∧
    combineFail.status = 500 ∧ combineFail.success = false ∧
    ({ temp := ([] : List TempEntry), backups := ([] : List (String × String)) } :
      ServerState).backups = [] ∧
    (∀ id ∈ ["c"], lookupT [] id = none) :=
  combine_parse_failure_no_rollback ⟨[⟨"c", "x", 0⟩], []⟩ ["c"] 0 [] "x" (by rfl) (by rfl)

/-- Claim C3 counterexample: the claim as stated is false when the backup
store already holds a file whose name sorts after the new one.  Saving the
document `7` into a store holding `backup_z.json` (content `0`) and then
reading the latest backup returns `0`, not `7`. -/
theorem save_then_get_counterexample :
    (getBackup (saveBackup ⟨[], [("backup_z.json", "0")]⟩ (Json.num 7) 0).1).data =
      some (Json.num 0) ∧
    some (Json.num 0) ≠ some (Json.num 7) := by
  constructor
  · rfl
  · intro h
    injection h with h1
    injection h1 with h2
    exact absurd h2 (by decide)

/-- Claim C3 (amended): saving a document `d` of the exactly modeled JSON
fragment and then reading the latest backup returns a value deep-equal to
`d`, provided no existing backup file has a filename sorting after the new
file's name (as when the server clock is monotone). -/
theorem save_then_get_returns_saved (st : ServerState) (d : Json) (now : Nat)
    (hwf : jsonWf d = true)
    (hmax : ∀ f ∈ st.backups.map Prod.fst, strLeB f (backupFilename now) = true) :
    getBackup (saveBackup st d now).1 = ⟨200, true, none, some d, none⟩ := by
  apply getBackup_found _ (backupFilename now) (Json.stringify d) d
  · apply List.mem_filter.mpr
    refine ⟨?_, backupFilename_endsWith now⟩
    show backupFilename now ∈ (writeB st.backups (backupFilename now)
      (Json.stringify d)).map Prod.fst
    simp [writeB]
  · intro y hy
    have hy2 := (List.mem_filter.mp hy).1
    simp only [saveBackup, writeB, List.map_cons, List.mem_cons] at hy2
    rcases hy2 with h1 | h1
    · rw [h1]
      exact strLeB_refl _
    · exact hmax y (mem_map_fst_eraseB st.backups (backupFilename now) y h1)
  · exact lookupB_writeB_self st.backups (backupFilename now) (Json.stringify d)
  · exact Json.parse_stringify d hwf

/-- Witness for C3 (amended): saving `5` into an empty store and reading it
back. -/
theorem save_then_get_returns_saved_witness :
    getBackup (saveBackup ⟨[], []⟩ (Json.num 5) 0).1 =
      ⟨200, true, none, some (Json.num 5), none⟩ :=
  save_then_get_returns_saved ⟨[], []⟩ (Json.num 5) 0 (by decide)
    (by intro f hf; exact absurd hf (List.not_mem_nil f))

/-- Claim C4: on a non-empty backup store, `GET /api/backup` selects the
lexicographically greatest filename among those ending in `.json` and
returns that file's parsed content in the data field of a success
envelope. -/
theorem getBackup_returns_latest (st : ServerState) (m content : String) (d : Json)
    (hm : m ∈ (st.backups.map Prod.fst).filter (fun f => strEndsWith f ".json"))
    (hub : ∀ y ∈ (st.backups.map Prod.fst).filter (fun f => strEndsWith f ".json"),
      strLeB y m = true)
    (hlook : lookupB st.backups m = some content)
    (hparse : Json.parse content = some (some d)) :
    getBackup st = ⟨200, true, none, some d, none⟩ :=
  getBackup_found st m content d hm hub hlook hparse

/-- Witness for C4: among `backup_a.json`, `backup_b.json` and `x.txt`, the
lexicographically greatest `.json` file `backup_b.json` is returned. -/
theorem getBackup_returns_latest_witness :
    getBackup ⟨[], [("backup_a.json", "5"), ("backup_b.json", "7"), ("x.txt", "q")]⟩ =
      ⟨200, true, none, some (Json.num 7), none⟩ :=
  getBackup_returns_latest
    ⟨[], [("backup_a.json", "5"), ("backup_b.json", "7"), ("x.txt", "q")]⟩
    "backup_b.json" "7" (Json.num 7) (by decide) (by decide) (by rfl) (by rfl)

/-- Claim C5: on an empty backup store, or one with no `.json` filename,
`GET /api/backup` answers a 404 failure envelope rather than crashing. -/
theorem getBackup_not_found (st : ServerState) :
    (st.backups = [] → getBackup st = ⟨404, false, some "No backups found", none, none⟩) ∧
    (st.backups ≠ [] → (∀ p ∈ st.backups, strEndsWith p.1 ".json" = false) →
      getBackup st = ⟨404, false, some "No backup files found", none, none⟩) := by
  constructor
  · intro h
    simp [getBackup, h]
  · intro hne hall
    have hfe : (st.backups.map Prod.fst).isEmpty = false := by
      cases hb : st.backups with
      | nil => exact absurd hb hne
      | cons p ps => simp [hb]
    have hfil : (st.backups.map Prod.fst).filter (fun f => strEndsWith f ".json") = [] := by
      rw [List.filter_eq_nil_iff]
      intro a ha
      obtain ⟨p, hp, hpa⟩ := List.mem_map.mp ha
      rw [← hpa]
      simp [hall p hp]
    simp [getBackup, hfe, hfil, sortLe]

/-- Witness for C5: the empty store answers `No backups found`; a store with
only `a.txt` answers `No backup files found`. -/
theorem getBackup_not_found_witness :
    getBackup ⟨[], []⟩ = ⟨404, false, some "No backups found", none, none⟩ ∧
    getBackup ⟨[], [("a.txt", "x")]⟩ =
      ⟨404, false, some "No backup files found", none, none⟩ :=
  ⟨(getBackup_not_found ⟨[], []⟩).1 rfl,
   (getBackup_not_found ⟨[], [("a.txt", "x")]⟩).2 (by simp) (by decide)⟩

/-- Claim C6: combining an empty chunk-id list parses the empty concatenation,
which fails, so combine answers a failure envelope and writes nothing: the
state is returned unchanged and no backup file appears. -/
theorem combine_empty_chunklist (st : ServerState) (timestamp : Nat) :
    combine st [] timestamp = (st, combineFail) ∧
    combineFail.status = 500 ∧ combineFail.success = false ∧
    Json.parse "" = none :=
  ⟨rfl, rfl, rfl, rfl⟩

/-- Claim C7: a sweep run (with no unlink failures) deletes exactly the temp
entries strictly older than one hour: the result is the filter of the
entries whose age is within the threshold, so every entry with
`now - mtime > 1h` is removed and every other entry is kept. -/
theorem sweeper_deletes_stale_keeps_fresh (now : Int) (temp : List TempEntry) :
    cleanupTempFiles now (fun _ => false) temp =
      temp.filter (fun e => decide (now - e.mtimeMs ≤ oneHourMs)) ∧
    (∀ e ∈ temp, oneHourMs < now - e.mtimeMs →
      e ∉ cleanupTempFiles now (fun _ => false) temp) ∧
    (∀ e ∈ temp, now - e.mtimeMs ≤ oneHourMs →
      e ∈ cleanupTempFiles now (fun _ => false) temp) := by
  refine ⟨cleanupTempFiles_noFail now temp, ?_, ?_⟩
  · intro e he hage hmem
    rw [cleanupTempFiles_noFail now temp] at hmem
    have := (List.mem_filter.mp hmem).2
    rw [decide_eq_true_iff] at this
    omega
  · intro e he hage
    rw [cleanupTempFiles_noFail now temp]
    exact List.mem_filter.mpr ⟨he, by rw [decide_eq_true_iff]; exact hage⟩

/-- Witness for C7, on the spec's example: a chunk written at T0 is removed
by a sweep at T0+2h, while a chunk written at T0+1.9h is retained. -/
theorem sweeper_deletes_stale_keeps_fresh_witness :
    (⟨"old", "", 0⟩ : TempEntry) ∉
      cleanupTempFiles 7200000 (fun _ => false) [⟨"old", "", 0⟩, ⟨"new", "", 6840000⟩] ∧
    (⟨"new", "", 6840000⟩ : TempEntry) ∈
      cleanupTempFiles 7200000 (fun _ => false) [⟨"old", "", 0⟩, ⟨"new", "", 6840000⟩] :=
  ⟨(sweeper_deletes_stale_keeps_fresh 7200000 [⟨"old", "", 0⟩, ⟨"new", "", 6840000⟩]).2.1
      ⟨"old", "", 0⟩ (by decide) (by decide),
   (sweeper_deletes_stale_keeps_fresh 7200000 [⟨"old", "", 0⟩, ⟨"new", "", 6840000⟩]).2.2
      ⟨"new", "", 6840000⟩ (by decide) (by decide)⟩

/-- Claim C8 counterexample: with two stale entries where deleting the first
(`a`) fails, the second (`b`) is not deleted by the run even though it is
stale, contradicting the claim that a failed delete does not abort the
processing of the remaining entries. -/
theorem sweeper_abort_counterexample :
    oneHourMs < (7200000 : Int) - 0 ∧
    (⟨"b", "", 0⟩ : TempEntry) ∈
      cleanupTempFiles 7200000 (fun name => name == "a") [⟨"a", "", 0⟩, ⟨"b", "", 0⟩] := by
  constructor
  · decide
  · decide

/-- Claim C8 (amended): a failure while deleting one entry is caught at the
sweep level (the sweeper itself returns rather than crashing), but it aborts
the processing of the remaining entries of that run: the entries before the
failing one are processed normally, while the failing entry and every entry
after it are left untouched until the next run. -/
theorem sweeper_unlink_error_aborts_run (now : Int) (fails : String → Bool)
    (pre : List TempEntry) (e : TempEntry) (suf : List TempEntry)
    (hpre : ∀ x ∈ pre, fails x.name = false)
    (he : oneHourMs < now - e.mtimeMs) (hfe : fails e.name = true) :
    cleanupTempFiles now fails (pre ++ e :: suf) =
      pre.filter (fun x => decide (now - x.mtimeMs ≤ oneHourMs)) ++ e :: suf := by
  unfold cleanupTempFiles
  rw [sweepRun_abort now fails e suf he hfe pre hpre]

/-- Witness for C8 (amended): the failing entry `a` and the stale entry `b`
after it both survive the run. -/
theorem sweeper_unlink_error_aborts_run_witness :
    cleanupTempFiles 7200000 (fun name => name == "a")
        ([] ++ (⟨"a", "", 0⟩ : TempEntry) :: [⟨"b", "", 0⟩]) =
      List.filter (fun x => decide ((7200000 : Int) - x.mtimeMs ≤ oneHourMs)) [] ++
        (⟨"a", "", 0⟩ : TempEntry) :: [⟨"b", "", 0⟩] :=
  sweeper_unlink_error_aborts_run 7200000 (fun name => name == "a") [] ⟨"a", "", 0⟩
    [⟨"b", "", 0⟩] (by intro x hx; exact absurd hx (List.not_mem_nil x))
    (by decide) (by rfl)

/-- Claim C9: the chunkId answered by `POST /api/backup/chunk` is
`chunk_` + timestamp + `_` + index, determined solely by the timestamp and
index: two requests with equal timestamp and index but different chunk
content and total get the same chunkId, and the second request's content
overwrites the first's stored chunk. -/
theorem chunkId_determined_by_timestamp_index (st : ServerState)
    (chunk1 chunk2 : String) (index total1 total2 timestamp : Nat) (now1 now2 : Int) :
    (receiveChunk st chunk1 index total1 timestamp now1).2 =
      ⟨200, true, none, none, some (chunkIdOf timestamp index)⟩ ∧
    (receiveChunk st chunk1 index total1 timestamp now1).2.chunkId =
      (receiveChunk st chunk2 index total2 timestamp now2).2.chunkId ∧
    lookupT ((receiveChunk (receiveChunk st chunk1 index total1 timestamp now1).1
        chunk2 index total2 timestamp now2).1).temp (chunkIdOf timestamp index) =
      some chunk2 := by
  refine ⟨rfl, rfl, ?_⟩
  simp [receiveChunk, writeT, lookupT]

/-- Claim C10: the staleness test is a strict inequality: an entry whose age
is exactly one hour (3,600,000 ms) is retained by a sweep run, and an entry
is deleted only when it is strictly older. -/
theorem sweeper_threshold_is_strict (now : Int) (temp : List TempEntry) (e : TempEntry)
    (hmem : e ∈ temp) (hage : now - e.mtimeMs = oneHourMs) :
    e ∈ cleanupTempFiles now (fun _ => false) temp ∧
    (∀ e2 ∈ temp, e2 ∉ cleanupTempFiles now (fun _ => false) temp →
      oneHourMs < now - e2.mtimeMs) := by
  constructor
  · rw [cleanupTempFiles_noFail now temp]
    exact List.mem_filter.mpr ⟨hmem, by rw [decide_eq_true_iff]; omega⟩
  · intro e2 he2 hnot
    by_contra hcon
    apply hnot
    rw [cleanupTempFiles_noFail now temp]
    exact List.mem_filter.mpr ⟨he2, by rw [decide_eq_true_iff]; omega⟩

/-- Witness for C10: an entry exactly one hour old survives the sweep. -/
theorem sweeper_threshold_is_strict_witness :
    (⟨"a", "", 0⟩ : TempEntry) ∈
      cleanupTempFiles 3600000 (fun _ => false) [⟨"a", "", 0⟩] :=
  (sweeper_threshold_is_strict 3600000 [⟨"a", "", 0⟩] ⟨"a", "", 0⟩
    (by decide) (by decide)).1
